import Mathlib

/-!
Verification development for the WebsiteScarper repository.

The repository has two variants of a single-site crawler:
- `main.py`: a recursive depth-first crawler using one global Selenium driver,
  extracting content into a Word document.
- `faster.py`: a worker-pool crawler (`ThreadPoolExecutor`) where each worker
  creates and quits its own Selenium driver, and the main thread claims newly
  discovered links under a lock.

This file shallowly embeds the pure logic of both variants: URL parsing,
joining and normalization (a model of Python's `urllib.parse`), the
BeautifulSoup-style HTML tree walk of the content extractors, table/list
extraction, link extraction, the claim/dedup discipline of both crawl loops,
and event-trace models of the Selenium-driver resource lifecycle.
-/

/-! ## Model of Python `urllib.parse`

`main.py` and `faster.py` both use `urlparse` and `urljoin` from
`urllib.parse`. The definitions below are translated from CPython's
`urllib/parse.py` (`urlsplit`, `_splitnetloc`, `_splitparams`, `urlparse`,
`urlunsplit`, `urlunparse`, `urljoin` and the `uses_relative`,
`uses_netloc`, `uses_params` scheme lists), working on `List Char`.
Control-character/whitespace stripping that `urlsplit` performs on its raw
input is not modelled; all URLs considered here are free of such characters.
-/

/-- Characters allowed in a URL scheme (`scheme_chars` in CPython). -/
def schemeChar (c : Char) : Bool :=
  c.isAlphanum || c == '+' || c == '-' || c == '.'

/-- Python `str.lower()` on one character. The crawler only lowercases URL
scheme candidates, which CPython has already checked to consist of ASCII
scheme characters, so the ASCII table is the whole behaviour. -/
def lowerChar (c : Char) : Char :=
  match c with
  | 'A' => 'a' | 'B' => 'b' | 'C' => 'c' | 'D' => 'd' | 'E' => 'e' | 'F' => 'f'
  | 'G' => 'g' | 'H' => 'h' | 'I' => 'i' | 'J' => 'j' | 'K' => 'k' | 'L' => 'l'
  | 'M' => 'm' | 'N' => 'n' | 'O' => 'o' | 'P' => 'p' | 'Q' => 'q' | 'R' => 'r'
  | 'S' => 's' | 'T' => 't' | 'U' => 'u' | 'V' => 'v' | 'W' => 'w' | 'X' => 'x'
  | 'Y' => 'y' | 'Z' => 'z'
  | c => c

/-- Split off a scheme, following CPython `urlsplit`: the part before the
first `':'` is a scheme iff it is nonempty, starts with a letter and consists
of scheme characters; the scheme is lowercased. Returns `none` when the URL
has no (valid) scheme. -/
def splitScheme (cs : List Char) : Option (List Char × List Char) :=
  let pre := cs.takeWhile (fun c => c != ':')
  match cs.dropWhile (fun c => c != ':') with
  | _ :: rest =>
    if (match pre with | c :: _ => c.isAlpha | [] => false) && pre.all schemeChar then
      some (pre.map lowerChar, rest)
    else none
  | [] => none

/-- Character that ends the netloc portion (`_splitnetloc` stops at any of
`'/'`, `'?'`, `'#'`). -/
def netlocDelim (c : Char) : Bool :=
  c == '/' || c == '?' || c == '#'

/-- CPython `_splitnetloc`: if the remaining URL starts with `''//''`, the
netloc extends to the next `'/'`, `'?'` or `'#'`. -/
def splitNetloc (cs : List Char) : List Char × List Char :=
  match cs with
  | '/' :: '/' :: rest =>
    (rest.takeWhile (fun c => !netlocDelim c), rest.dropWhile (fun c => !netlocDelim c))
  | _ => ([], cs)

/-- Split a list at the first occurrence of `ch`: returns the part before it
and the part after it (the separator removed); if `ch` does not occur the
second component is empty. Models Python's `url.split(ch, 1)` combined with
the `ch in url` membership test. -/
def splitAtFirst (ch : Char) (cs : List Char) : List Char × List Char :=
  (cs.takeWhile (fun c => c != ch), (cs.dropWhile (fun c => c != ch)).drop 1)

/-- CPython `_splitparams`: split `;`-parameters off the last path segment. -/
def splitPathParams (cs : List Char) : List Char × List Char :=
  if cs.contains '/' then
    let pre := (cs.reverse.dropWhile (fun c => c != '/')).reverse
    let seg := (cs.reverse.takeWhile (fun c => c != '/')).reverse
    if seg.contains ';' then
      (pre ++ seg.takeWhile (fun c => c != ';'), (seg.dropWhile (fun c => c != ';')).drop 1)
    else (cs, [])
  else
    (cs.takeWhile (fun c => c != ';'), (cs.dropWhile (fun c => c != ';')).drop 1)

/-- Result of `urlsplit`, before parameter splitting. -/
structure SplitRes where
  scheme : List Char
  netloc : List Char
  path : List Char
  query : List Char
  fragment : List Char
deriving DecidableEq, Repr

/-- CPython `urlsplit(url, scheme=ds)`: scheme, then netloc after `''//''`,
then fragment at the first `'#'`, then query at the first `'?'`. -/
def urlsplitCore (cs : List Char) (ds : List Char) : SplitRes :=
  let s1 := match splitScheme cs with
    | some (s, r) => (s, r)
    | none => (ds, cs)
  let n1 := splitNetloc s1.2
  let f1 := splitAtFirst '#' n1.2
  let q1 := splitAtFirst '?' f1.1
  ⟨s1.1, n1.1, q1.1, q1.2, f1.2⟩

/-- Schemes that use relative URLs (`uses_relative` in CPython). -/
def usesRelative : List String :=
  ["", "ftp", "http", "gopher", "nntp", "imap", "wais", "file", "https", "shttp",
   "mms", "prospero", "rtsp", "rtspu", "sftp", "svn", "svn+ssh", "ws", "wss"]

/-- Schemes that use a netloc (`uses_netloc` in CPython). -/
def usesNetloc : List String :=
  ["", "ftp", "http", "gopher", "nntp", "telnet", "imap", "wais", "file", "mms",
   "https", "shttp", "snews", "prospero", "rtsp", "rtspu", "rsync", "svn",
   "svn+ssh", "sftp", "nfs", "git", "git+ssh", "ws", "wss", "itms-services"]

/-- Schemes that use `;`-parameters (`uses_params` in CPython). -/
def usesParams : List String :=
  ["", "ftp", "hdl", "prospero", "http", "imap", "https", "shttp", "rtsp",
   "rtspu", "sip", "sips", "mms", "sftp", "tel"]

/-- Result of Python `urlparse`: a six-tuple of strings. -/
structure ParseResult where
  scheme : String
  netloc : String
  path : String
  pathParams : String
  query : String
  fragment : String
deriving DecidableEq, Repr

/-- CPython `urlparse(url, scheme=ds)`: `urlsplit` plus `;`-parameter
splitting for schemes in `uses_params`. -/
def urlparseWith (url : String) (ds : String) : ParseResult :=
  let r := urlsplitCore url.data ds.data
  let pp :=
    if String.mk r.scheme ∈ usesParams && r.path.contains ';' then
      splitPathParams r.path
    else (r.path, [])
  ⟨String.mk r.scheme, String.mk r.netloc, String.mk pp.1, String.mk pp.2,
   String.mk r.query, String.mk r.fragment⟩

/-- Python `urlparse(url)` with the default empty scheme, as called at
`main.py` lines 131/133 and `faster.py` lines 73/74. -/
def urlparse (url : String) : ParseResult := urlparseWith url ""

/-- CPython `urlunsplit`. -/
def urlunsplitCore (scheme netloc url query fragment : List Char) : List Char :=
  let u1 :=
    if netloc ≠ [] ∨ (url ≠ [] ∧ url.take 2 = ['/', '/']) then
      '/' :: '/' :: netloc ++ (if url ≠ [] ∧ url.take 1 ≠ ['/'] then '/' :: url else url)
    else url
  let u2 := if scheme ≠ [] then scheme ++ ':' :: u1 else u1
  let u3 := if query ≠ [] then u2 ++ '?' :: query else u2
  if fragment ≠ [] then u3 ++ '#' :: fragment else u3

/-- CPython `urlunparse`: re-attach `;`-parameters to the path, then
`urlunsplit`. -/
def urlunparse (p : ParseResult) : String :=
  let url := if p.pathParams ≠ "" then p.path.data ++ ';' :: p.pathParams.data else p.path.data
  String.mk (urlunsplitCore p.scheme.data p.netloc.data url p.query.data p.fragment.data)

/-- Python `'a/b/c'.split('/')` on character lists: `[]` input yields `[[]]`,
like Python's `''.split('/') == ['']`. -/
def splitOnSlash : List Char → List (List Char)
  | [] => [[]]
  | c :: cs =>
    if c = '/' then [] :: splitOnSlash cs
    else
      match splitOnSlash cs with
      | [] => [[c]]
      | s :: ss => (c :: s) :: ss

/-- Python `'/'.join(segs)` on character lists. -/
def joinSlash : List (List Char) → List Char
  | [] => []
  | [s] => s
  | s :: ss => s ++ '/' :: joinSlash ss

/-- The `segments[1:-1] = filter(None, segments[1:-1])` step of CPython
`urljoin`: drop empty segments, keeping the first and last untouched. -/
def filterMiddle (l : List (List Char)) : List (List Char) :=
  match l with
  | [] => []
  | [x] => [x]
  | x :: y :: xs =>
    x :: ((y :: xs).dropLast.filter (fun s => s ≠ [])) ++ [(y :: xs).getLastD []]

/-- The segment-resolution loop of CPython `urljoin` (`'..'` pops, `'.'` is
dropped, anything else is appended). -/
def resolveSegs (segs : List (List Char)) : List (List Char) :=
  segs.foldl
    (fun acc seg =>
      if seg = ['.', '.'] then acc.dropLast
      else if seg = ['.'] then acc
      else acc ++ [seg])
    []

/-- CPython `urljoin(base, url)`. -/
def urljoin (base url : String) : String :=
  if base = "" then url
  else if url = "" then base
  else
    let b := urlparseWith base ""
    let u := urlparseWith url b.scheme
    if u.scheme ≠ b.scheme ∨ u.scheme ∉ usesRelative then url
    else if u.scheme ∈ usesNetloc ∧ u.netloc ≠ "" then urlunparse u
    else
      let netloc := if u.scheme ∈ usesNetloc then b.netloc else u.netloc
      if u.path = "" ∧ u.pathParams = "" then
        let q := if u.query = "" then b.query else u.query
        urlunparse ⟨u.scheme, netloc, b.path, b.pathParams, q, u.fragment⟩
      else
        let baseParts0 := splitOnSlash b.path.data
        let baseParts := if baseParts0.getLastD [] ≠ [] then baseParts0.dropLast else baseParts0
        let segments :=
          if u.path.data.take 1 = ['/'] then splitOnSlash u.path.data
          else filterMiddle (baseParts ++ splitOnSlash u.path.data)
        let resolved0 := resolveSegs segments
        let resolved :=
          if segments.getLastD [] = ['.'] ∨ segments.getLastD [] = ['.', '.'] then
            resolved0 ++ [[]]
          else resolved0
        let joined := joinSlash resolved
        let path2 := if joined = [] then "/" else String.mk joined
        urlunparse ⟨u.scheme, netloc, path2, u.pathParams, u.query, u.fragment⟩

/-- The URL normalization both variants perform inline:
`clean_url = parsed.scheme + "://" + parsed.netloc + parsed.path`
(`main.py` line 135, `faster.py` line 75) applied to the parse of `u`. -/
def normalizeUrl (u : String) : String :=
  let parsed := urlparse u
  parsed.scheme ++ "://" ++ parsed.netloc ++ parsed.path


/-! ## Model of the BeautifulSoup HTML tree

Both variants parse the fetched page with `BeautifulSoup(html, "html.parser")`
and then only use: `find_all` with a list of tag names (document-order
preorder over all descendants), `find_all(..., recursive=False)` (direct
children only), `find`/`.body` (first matching descendant), `get_text(strip=True)`
(concatenation of the stripped text descendants), `tag.parents` (ancestor
chain), tag equality (bs4 `Tag.__eq__` is structural: same name, attributes
and contents), `decompose` of `nav` subtrees, and the `href` attribute of
anchor tags. The tree is a mutual inductive so that all traversals are
structural recursions that the kernel can evaluate. -/

mutual
inductive HNode where
  | text (s : String)
  | elem (name : String) (attrs : List (String × String)) (children : HForest)
inductive HForest where
  | nil
  | cons (hd : HNode) (tl : HForest)
end

mutual
def HNode.deq : (a b : HNode) → Decidable (a = b)
  | .text s, .text t =>
    match decEq s t with
    | isTrue h => isTrue (by rw [h])
    | isFalse h => isFalse (fun e => by cases e; exact h rfl)
  | .text _, .elem _ _ _ => isFalse (fun e => by cases e)
  | .elem _ _ _, .text _ => isFalse (fun e => by cases e)
  | .elem n1 a1 c1, .elem n2 a2 c2 =>
    match decEq n1 n2, decEq a1 a2, HForest.deq c1 c2 with
    | isTrue h1, isTrue h2, isTrue h3 => isTrue (by rw [h1, h2, h3])
    | isFalse h1, _, _ => isFalse (fun e => by cases e; exact h1 rfl)
    | _, isFalse h2, _ => isFalse (fun e => by cases e; exact h2 rfl)
    | _, _, isFalse h3 => isFalse (fun e => by cases e; exact h3 rfl)
def HForest.deq : (a b : HForest) → Decidable (a = b)
  | .nil, .nil => isTrue rfl
  | .nil, .cons _ _ => isFalse (fun e => by cases e)
  | .cons _ _, .nil => isFalse (fun e => by cases e)
  | .cons n1 f1, .cons n2 f2 =>
    match HNode.deq n1 n2, HForest.deq f1 f2 with
    | isTrue h1, isTrue h2 => isTrue (by rw [h1, h2])
    | isFalse h1, _ => isFalse (fun e => by cases e; exact h1 rfl)
    | _, isFalse h2 => isFalse (fun e => by cases e; exact h2 rfl)
end

instance : DecidableEq HNode := HNode.deq
instance : DecidableEq HForest := HForest.deq

/-- View of a forest as a list of nodes. -/
def HForest.toList : HForest → List HNode
  | .nil => []
  | .cons n f => n :: f.toList

/-- Build a forest from a list of nodes (for writing concrete trees). -/
def HForest.ofList : List HNode → HForest
  | [] => .nil
  | n :: ns => .cons n (HForest.ofList ns)

/-- Shorthand for an attribute-free element with the given children. -/
def el (nm : String) (ch : List HNode) : HNode := .elem nm [] (HForest.ofList ch)

/-- Shorthand for an element with attributes. -/
def elA (nm : String) (attrs : List (String × String)) (ch : List HNode) : HNode :=
  .elem nm attrs (HForest.ofList ch)

/-- Shorthand for a text node. -/
def tx (s : String) : HNode := .text s

/-- Tag name of a node (a bare string for text nodes). -/
def HNode.nodeName : HNode → String
  | .text _ => ""
  | .elem nm _ _ => nm

/-- Python `str.strip()` on character lists (whitespace removed from both
ends). -/
def stripChars (cs : List Char) : List Char :=
  ((cs.dropWhile Char.isWhitespace).reverse.dropWhile Char.isWhitespace).reverse

/-- Python `str.strip()`, as applied to `a['href'].strip()`. -/
def pyStrip (s : String) : String := String.mk (stripChars s.data)

mutual
def HNode.textChars : HNode → List Char
  | .text s => stripChars s.data
  | .elem _ _ ch => ch.textChars
def HForest.textChars : HForest → List Char
  | .nil => []
  | .cons n f => n.textChars ++ f.textChars
end

/-- BeautifulSoup `tag.get_text(strip=True)`: every text descendant is
stripped and the results are concatenated in document order. -/
def getText (n : HNode) : String := String.mk n.textChars

mutual
def HNode.removeNavs : HNode → HNode
  | .text s => .text s
  | .elem nm a ch => .elem nm a ch.removeNavs
def HForest.removeNavs : HForest → HForest
  | .nil => .nil
  | .cons n f =>
    if n.nodeName = "nav" then f.removeNavs
    else .cons n.removeNavs f.removeNavs
end

/-- The `for nav in soup.find_all('nav'): nav.decompose()` step of both
variants: every `nav` subtree is removed from the document. -/
def removeNavs (n : HNode) : HNode := HNode.removeNavs n

mutual
def HNode.findFirst (nm : String) : HNode → Option HNode
  | .text _ => none
  | .elem _ _ ch => ch.findFirst nm
def HForest.findFirst (nm : String) : HForest → Option HNode
  | .nil => none
  | .cons c cs =>
    if c.nodeName = nm then some c
    else
      match c.findFirst nm with
      | some r => some r
      | none => cs.findFirst nm
end

/-- BeautifulSoup `soup.find(nm)` / `soup.body`: the first descendant tag
with the given name, in document order. -/
def findFirst (nm : String) (n : HNode) : Option HNode := n.findFirst nm

mutual
def HNode.collectTags (flt : List String) : HNode → List HNode → List (List HNode × HNode)
  | .text _, _ => []
  | .elem nm a ch, anc =>
    (if nm ∈ flt then [(anc, HNode.elem nm a ch)] else []) ++
      ch.collectTags flt (HNode.elem nm a ch :: anc)
def HForest.collectTags (flt : List String) : HForest → List HNode → List (List HNode × HNode)
  | .nil, _ => []
  | .cons c cs, anc => c.collectTags flt anc ++ cs.collectTags flt anc
end

/-- BeautifulSoup `root.find_all(flt, recursive=True)` paired with each found
tag's ancestor chain (`tag.parents` up to and excluding `root`'s own
ancestors): all descendant tags whose name is in `flt`, in document order. -/
def collectTags (flt : List String) (root : HNode) : List (List HNode × HNode) :=
  HNode.collectTags flt root []

/-- BeautifulSoup `root.find_all(flt)` (names only, no ancestors). -/
def findAllNames (flt : List String) (root : HNode) : List HNode :=
  (collectTags flt root).map Prod.snd

/-- BeautifulSoup `find_all(nm, recursive=False)`: direct children with the
given tag name. -/
def directChildren (nm : String) (n : HNode) : List HNode :=
  match n with
  | .text _ => []
  | .elem _ _ ch => ch.toList.filter (fun c => c.nodeName = nm)

/-- Attribute lookup on a tag. -/
def getAttr (n : HNode) (key : String) : Option String :=
  match n with
  | .text _ => none
  | .elem _ a _ => a.lookup key

/-- BeautifulSoup `soup.find_all('a', href=True)` projected to the `href`
values, in document order. -/
def hrefsOf (soup : HNode) : List String :=
  (findAllNames ["a"] soup).filterMap (fun t => getAttr t "href")


/-! ## Content extraction

`main.py`'s `parse_and_save_content` (body walk, lines 97-121) appends
directly to the Word document; `faster.py`'s `parse_content_and_links`
(lines 60-106) builds a `content_structure` list that the main thread later
writes to the document (lines 149-158). The document is modelled as a list
of `DocItem`s, `content_structure` as a list of `CStruct`s. The one-time
header/footer capture of `main.py` (lines 79-95) is not modelled: no claim
concerns it and it touches no state the claims mention. -/

/-- One unit appended to the Word document: a heading, a styled or plain
paragraph, or a filled table grid. -/
inductive DocItem where
  | heading (text : String) (level : Nat)
  | para (text : String) (style : Option String)
  | table (grid : List (List String))
deriving DecidableEq, Repr

/-- One entry of `faster.py`'s `content_structure` list (the tuples built at
lines 92-102). -/
inductive CStruct where
  | heading (text : String) (level : Nat)
  | table (tag : HNode)
  | list (items : List HNode) (ordered : Bool)
  | paragraph (text : String)
deriving DecidableEq

/-- The cells of one table row: `row.find_all(['td', 'th'])`. -/
def rowCells (row : HNode) : List HNode := findAllNames ["td", "th"] row

/-- `main.py` lines 46-50: running maximum of the per-row cell counts via an
explicit comparison loop. -/
def maxColsMain (rows : List HNode) : Nat :=
  rows.foldl
    (fun m row => if (rowCells row).length > m then (rowCells row).length else m) 0

/-- `faster.py` lines 29-31: the same maximum via `max`. -/
def maxColsFast (rows : List HNode) : Nat :=
  rows.foldl (fun m row => max m (rowCells row).length) 0

/-- The empty `rows × cols` grid that `doc.add_table(rows=..., cols=...)`
creates (every cell initially empty text). -/
def emptyGrid (r c : Nat) : List (List String) :=
  List.replicate r (List.replicate c "")

/-- Assignment `table.cell(i, j).text = s`. -/
def setCell (g : List (List String)) (i j : Nat) (s : String) : List (List String) :=
  g.set i ((g.getD i []).set j s)

/-- The population loop of `add_table` (`main.py` lines 61-66, `faster.py`
lines 36-40): for each row `i` and each of its cells `j`, if `j < max_cols`
write the cell's stripped text at `(i, j)`. -/
def fillTable (g : List (List String)) (rows : List HNode) (maxCols : Nat) :
    List (List String) :=
  (rows.enum).foldl
    (fun g2 p =>
      ((rowCells p.2).enum).foldl
        (fun g3 q => if q.1 < maxCols then setCell g3 p.1 q.1 (getText q.2) else g3)
        g2)
    g

/-- `main.py` `add_table` (lines 35-66): returns the grid written into the
document, or `none` when the function returns early (no rows, or zero
columns). -/
def add_table (bs_table : HNode) : Option (List (List String)) :=
  let rows := findAllNames ["tr"] bs_table
  if rows = [] then none
  else
    let max_cols := maxColsMain rows
    if max_cols = 0 then none
    else some (fillTable (emptyGrid rows.length max_cols) rows max_cols)

/-- `faster.py` `add_table` (lines 25-40), identical except for how the
maximum is computed. -/
def add_table_fast (bs_table : HNode) : Option (List (List String)) :=
  let rows := findAllNames ["tr"] bs_table
  if rows = [] then none
  else
    let max_cols := maxColsFast rows
    if max_cols = 0 then none
    else some (fillTable (emptyGrid rows.length max_cols) rows max_cols)

/-- `main.py` `add_list` (lines 69-75): ordered items become numbered
paragraphs `"i. text"` in the `List Number` style, unordered ones plain
paragraphs in the `List Bullet` style. -/
def add_list (items : List HNode) (is_ordered : Bool) : List DocItem :=
  (items.enum).map
    (fun p =>
      if is_ordered then
        DocItem.para (toString (p.1 + 1) ++ ". " ++ getText p.2) (some "List Number")
      else DocItem.para (getText p.2) (some "List Bullet"))

/-- `faster.py` `add_list` (lines 42-46): every item becomes a styled
paragraph of its stripped text (no number prefix). -/
def add_list_fast (items : List HNode) (is_ordered : Bool) : List DocItem :=
  items.map
    (fun it =>
      DocItem.para (getText it) (some (if is_ordered then "List Number" else "List Bullet")))

/-- Python `tag.name.startswith('h')`. -/
def startsWithH (nm : String) : Bool :=
  match nm.data with
  | 'h' :: _ => true
  | _ => false

/-- `main.py` line 110: `int(tag.name[1]) if tag.name[1].isdigit() else 1`.
Total model; the walk only ever applies it to names `h1`-`h6`, which always
have a second character. -/
def headingLevelMain (nm : String) : Nat :=
  match nm.data with
  | _ :: c :: _ => if c.isDigit then c.toNat - '0'.toNat else 1
  | _ => 1

/-- `faster.py` lines 90-94: `int(tag.name[1])` under `try`, with
`ValueError`/`IndexError` caught (`none`). -/
def headingLevelFast (nm : String) : Option Nat :=
  match nm.data with
  | _ :: c :: _ => if c.isDigit then some (c.toNat - '0'.toNat) else none
  | _ => none

/-- What one visited (non-skipped) tag contributes to the document in
`main.py`'s walk (lines 109-119). -/
def emitMain (t : HNode) : List DocItem :=
  match t with
  | .text _ => []
  | .elem nm _ _ =>
    if startsWithH nm then
      [DocItem.heading (getText t) (min (headingLevelMain nm) 4)]
    else if nm = "table" then
      match add_table t with
      | some g => [DocItem.table g]
      | none => []
    else if nm = "ul" then add_list (directChildren "li" t) false
    else if nm = "ol" then add_list (directChildren "li" t) true
    else if nm = "p" ∧ getText t ≠ "" then [DocItem.para (getText t) none]
    else []

/-- What one visited (non-skipped) tag contributes to `content_structure` in
`faster.py`'s walk (lines 89-102). -/
def emitFast (t : HNode) : List CStruct :=
  match t with
  | .text _ => []
  | .elem nm _ _ =>
    if startsWithH nm then
      match headingLevelFast nm with
      | some lvl => [CStruct.heading (getText t) (min lvl 4)]
      | none => []
    else if nm = "table" then [CStruct.table t]
    else if nm = "ul" then [CStruct.list (directChildren "li" t) false]
    else if nm = "ol" then [CStruct.list (directChildren "li" t) true]
    else if nm = "p" ∧ getText t ≠ "" then [CStruct.paragraph (getText t)]
    else []

/-- The shared walk loop of both variants (`main.py` lines 103-121,
`faster.py` lines 82-104): iterate over the found tags in document order;
skip a tag when any of its ancestors equals (bs4 structural equality) a tag
already in `processed_tags`; otherwise emit its contribution and append it
to `processed_tags` — whether or not it emitted anything. Returns the
emitted output and the final `processed_tags`. -/
def extractRun {β : Type} (emit : HNode → List β) :
    List (List HNode × HNode) → List HNode → List β → List β × List HNode
  | [], proc, acc => (acc, proc)
  | (anc, t) :: rest, proc, acc =>
    if anc.any (fun a => decide (a ∈ proc)) then extractRun emit rest proc acc
    else extractRun emit rest (proc ++ [t]) (acc ++ emit t)

/-- The tag-name filter of `main.py` line 104. -/
def mainFilter : List String :=
  ["h1", "h2", "h3", "h4", "h5", "h6", "p", "table", "ul", "ol"]

/-- The tag-name filter of `faster.py` line 85 (no `h5`/`h6`). -/
def fastFilter : List String :=
  ["h1", "h2", "h3", "h4", "p", "table", "ul", "ol"]

/-- The body walk of `main.py`'s `parse_and_save_content` (lines 97-121):
remove all `nav` subtrees, then walk `soup.body`. When the page has no
`body`, `soup.body` is `None` and line 104 raises `AttributeError` (caught
by `crawl`'s `except`); that is the `none` result. -/
def parse_and_save_content (soup : HNode) : Option (List DocItem) :=
  let s := removeNavs soup
  match findFirst "body" s with
  | none => none
  | some b => some (extractRun emitMain (collectTags mainFilter b) [] []).1

/-- Python `href.startswith(pre)`. -/
def strStarts (s pre : String) : Bool := pre.data.isPrefixOf s.data

/-- Python `pat in s` substring containment. -/
def containsSubChars (pat : List Char) : List Char → Bool
  | [] => pat.isEmpty
  | c :: cs => pat.isPrefixOf (c :: cs) || containsSubChars pat cs

/-- Python `pat in s` on strings. -/
def strContains (s pat : String) : Bool := containsSubChars pat.data s.data

/-- `main.py` `extract_links` (lines 124-138): for each `href`, strip it,
resolve against the page URL, and keep its normalized form iff its netloc
equals the netloc of the configured `BASE_URL`; the result is a set
(duplicates collapse). -/
def extract_links (soup : HNode) (base_url BASE_URL : String) : List String :=
  (hrefsOf soup).foldl
    (fun links href0 =>
      let href := pyStrip href0
      let full_url := urljoin base_url href
      let parsed := urlparse full_url
      if parsed.netloc = (urlparse BASE_URL).netloc then
        let clean_url := parsed.scheme ++ "://" ++ parsed.netloc ++ parsed.path
        if clean_url ∈ links then links else links ++ [clean_url]
      else links)
    []

/-- The link loop of `faster.py`'s `parse_content_and_links` (lines 67-76):
like `extract_links` but first skipping `mailto:`/`tel:`/`javascript:`
targets and any `href` containing `cdn-cgi`. -/
def fastLinkPass (soup : HNode) (url BASE_URL : String) : List String :=
  (hrefsOf soup).foldl
    (fun links href0 =>
      let href := pyStrip href0
      if strStarts href "mailto:" || strStarts href "tel:" || strStarts href "javascript:"
          || strContains href "cdn-cgi" then links
      else
        let full_url := urljoin url href
        let parsed := urlparse full_url
        if parsed.netloc = (urlparse BASE_URL).netloc then
          let clean_url := parsed.scheme ++ "://" ++ parsed.netloc ++ parsed.path
          if clean_url ∈ links then links else links ++ [clean_url]
        else links)
    []

/-- `faster.py` `parse_content_and_links` (lines 60-106): `none` input models
`html_content` being `None`/empty (line 62); otherwise the link pass runs on
the original soup, then `nav` subtrees are removed and the body (if any) is
walked. -/
def parse_content_and_links (html_content : Option HNode) (url BASE_URL : String) :
    List CStruct × List String :=
  match html_content with
  | none => ([], [])
  | some soup =>
    let links := fastLinkPass soup url BASE_URL
    let soup2 := removeNavs soup
    let content :=
      match findFirst "body" soup2 with
      | none => []
      | some b => (extractRun emitFast (collectTags fastFilter b) [] []).1
    (content, links)

/-- The document-writing loop of `faster.py`'s `main` (lines 149-158),
applied to one page's `content_structure`. -/
def writeContent (content : List CStruct) : List DocItem :=
  content.flatMap
    (fun c =>
      match c with
      | .heading t lvl => [DocItem.heading t lvl]
      | .paragraph t => [DocItem.para t none]
      | .table tag =>
        match add_table_fast tag with
        | some g => [DocItem.table g]
        | none => []
      | .list items ord => add_list_fast items ord)


/-! ## The crawl loops

URLs are modelled generically over a type with decidable equality (the code
uses Python strings); the `visited` set is a membership-checked list.

`faster.py`'s `main` (lines 126-164) keeps `visited_urls`, a lock, and a set
of pending futures. Each claim (`lines 160-164`) is one atomic lock-protected
check-insert-submit; the completion loop is modelled as a work-list: dequeue
a completed page, record its fetch, and claim each of its links. `main.py`'s
`crawl` (lines 140-161) is the recursive variant, modelled with a fuel
parameter for the recursion (the Python recursion has no fuel; every
concrete run shown below uses ample fuel). -/

/-- One lock-protected claim step of `faster.py` lines 161-164: check
membership, and if absent insert; the Bool says whether the URL was claimed
(and hence submitted to the pool). -/
def tryClaim {α : Type} [DecidableEq α] (visited : List α) (u : α) : List α × Bool :=
  if u ∈ visited then (visited, false) else (u :: visited, true)

/-- A serialized sequence of claim steps (any interleaving of concurrent
claims serializes into such a sequence, because each step holds the lock).
Each step is one `tryClaim`: if the URL is already visited nothing happens,
otherwise it is inserted and scheduled. Returns the final visited set and
the list of URLs actually claimed (scheduled), in order. -/
def runClaims {α : Type} [DecidableEq α] : List α → List α → List α × List α
  | [], visited => (visited, [])
  | u :: us, visited =>
    if u ∈ visited then runClaims us visited
    else
      let r := runClaims us (u :: visited)
      (r.1, u :: r.2)

/-- `main.py` `crawl` (lines 140-161): return if the URL is visited or the
depth exceeds `max_depth`; otherwise insert into `visited`, fetch
(recorded in the second component, the fetch log), and recurse into each
extracted link that is not yet visited. `fuel` only bounds the recursion
depth of the model. -/
def crawlRec {α : Type} [DecidableEq α] (links : α → List α) (max_depth : Nat) :
    Nat → List α → α → Nat → List α × List α
  | 0, visited, _, _ => (visited, [])
  | fuel + 1, visited, url, depth =>
    if url ∈ visited ∨ max_depth < depth then (visited, [])
    else
      (links url).foldl
        (fun p link =>
          if link ∈ p.1 then p
          else
            let r := crawlRec links max_depth fuel p.1 link (depth + 1)
            (r.1, p.2 ++ r.2))
        (url :: visited, [url])

/-- State of the worker-pool crawl: the visited set, the queue of claimed
but not yet processed URLs (the pending futures), and the log of processed
fetches. -/
structure WLState (α : Type) where
  visited : List α
  queue : List α
  fetched : List α
deriving DecidableEq, Repr

/-- The `for link in new_links` claim loop of `faster.py` lines 160-164,
run against a crawl state: each new link is claimed atomically and, if
fresh, enqueued. -/
def claimAll {α : Type} [DecidableEq α] : List α → WLState α → WLState α
  | [], s => s
  | l :: ls, s =>
    if l ∈ s.visited then claimAll ls s
    else claimAll ls ⟨l :: s.visited, s.queue ++ [l], s.fetched⟩

/-- The completion loop of `faster.py` lines 140-164: while futures remain,
take a completed page (one schedule of `as_completed`), log its fetch, and
claim its links. `fuel` bounds the number of iterations of the model. -/
def crawlLoop {α : Type} [DecidableEq α] (links : α → List α) :
    Nat → WLState α → WLState α
  | 0, s => s
  | fuel + 1, s =>
    match s.queue with
    | [] => s
    | u :: rest =>
      crawlLoop links fuel (claimAll (links u) ⟨s.visited, rest, s.fetched ++ [u]⟩)

/-- Reachability in the same-domain link graph from the seed. -/
inductive Reach {α : Type} (links : α → List α) (seed : α) : α → Prop where
  | base : Reach links seed seed
  | step {u v : α} : Reach links seed u → v ∈ links u → Reach links seed v

/-- The three-page scenario of the spec: A links to B and C, B links back
to A, C links nowhere. -/
def scenLinks : String → List String
  | "A" => ["B", "C"]
  | "B" => ["A"]
  | _ => []

/-- The finite chain `0 → 1 → ⋯ → 201` used to probe the depth bound of
`main.py`'s recursive crawl. -/
def chainLinks (n : Nat) : List Nat :=
  if n < 201 then [n + 1] else []


/-! ## Rendering-resource (Selenium driver) event traces

`main.py` creates one module-level driver (line 20), navigates it on every
`crawl` call (line 146), and quits it once in `main` (line 166).
`faster.py`'s `worker` (lines 108-124) creates its own driver per fetch and
quits it in a `finally`, so the release happens on the success path and on
the exception path alike. Driver instances are identified by allocation
number. -/

/-- Driver lifecycle events. -/
inductive REv where
  | acquire (d : Nat)
  | navigate (d : Nat) (url : String)
  | release (d : Nat)
deriving DecidableEq, Repr

/-- The driver-event trace of one `faster.py` `worker` call (lines 108-124)
with driver id `d`: `get_driver()`, `driver.get(url)` inside `try`, and
`driver.quit()` in `finally`. `ok` records whether the fetch raised; the
trace is the same either way because of the `finally`. -/
def workerTrace (d : Nat) (url : String) ( _ok : Bool) : List REv :=
  [REv.acquire d, REv.navigate d url, REv.release d]

/-- The concatenated driver trace of a `faster.py` run processing the given
pages (fetch outcomes included), allocating a fresh driver id per worker
call. -/
def fasterDriverTrace : Nat → List (String × Bool) → List REv
  | _, [] => []
  | d, (u, ok) :: rest => workerTrace d u ok ++ fasterDriverTrace (d + 1) rest

/-- The driver trace of a `main.py` run crawling the given URLs in order:
one global driver acquired at module load (line 20), navigated for every
fetch (line 146), and quit once at the end of `main` (line 166). -/
def mainDriverTrace (urls : List String) : List REv :=
  REv.acquire 0 :: (urls.map (fun u => REv.navigate 0 u) ++ [REv.release 0])

/-- Number of fetches a trace performs on driver `d`. -/
def navCount (tr : List REv) (d : Nat) : Nat :=
  (tr.filter (fun e => match e with | .navigate d2 _ => d2 = d | _ => false)).length

/-- The dedicated-resource property claimed by the spec: no driver instance
is used for more than one fetch. -/
def DedicatedPerFetch (tr : List REv) : Prop :=
  ∀ d : Nat, navCount tr d ≤ 1


/-! ## Auxiliary definitions used only by the proofs -/

/-- Effect of `fillTable`'s inner cell loop on a single row list. -/
def rowFill (r : List String) (cellsE : List (Nat × HNode)) (maxCols : Nat) : List String :=
  cellsE.foldl (fun r2 q => if q.1 < maxCols then r2.set q.1 (getText q.2) else r2) r

/-- `fillTable`'s outer loop started at row index `k` (proof generalization
of `fillTable`, which is the `k = 0` case). -/
def fillOuterFrom (maxCols k : Nat) (rs : List HNode) (g : List (List String)) :
    List (List String) :=
  (List.enumFrom k rs).foldl
    (fun g2 p =>
      ((rowCells p.2).enum).foldl
        (fun g3 q => if q.1 < maxCols then setCell g3 p.1 q.1 (getText q.2) else g3)
        g2)
    g

/-- Invariant of the worker-pool crawl state: `visited` has no duplicates;
no URL is pending or fetched twice; `visited` is exactly the fetched URLs
plus the queued ones; links of every processed page have been claimed;
everything visited is reachable from the seed and lies in the finite
universe `U`; the seed is visited. -/
def WLInv {α : Type} (links : α → List α) (seed : α) (U : List α) (s : WLState α) : Prop :=
  s.visited.Nodup ∧
  (s.fetched ++ s.queue).Nodup ∧
  (∀ x, x ∈ s.visited ↔ x ∈ s.fetched ∨ x ∈ s.queue) ∧
  (∀ u ∈ s.fetched, ∀ v ∈ links u, v ∈ s.visited) ∧
  (∀ x ∈ s.visited, Reach links seed x) ∧
  (∀ x ∈ s.visited, x ∈ U) ∧
  seed ∈ s.visited

/-- Termination measure of the worker-pool crawl over the finite universe
`U`: twice the number of not-yet-visited universe URLs, plus the queue
length. -/
def wlMeasure {α : Type} [DecidableEq α] (U : List α) (s : WLState α) : Nat :=
  2 * (U.filter (fun x => decide (x ∉ s.visited))).length + s.queue.length

/-- The keep-condition of `faster.py`'s link loop applied to one raw `href`:
not an inter-application scheme, no vendor marker, and the resolved netloc
matches the base. -/
def keepFast (url BASE_URL h : String) : Bool :=
  !(strStarts (pyStrip h) "mailto:" || strStarts (pyStrip h) "tel:" ||
      strStarts (pyStrip h) "javascript:" || strContains (pyStrip h) "cdn-cgi") &&
    decide ((urlparse (urljoin url (pyStrip h))).netloc = (urlparse BASE_URL).netloc)

/-- The keep-condition of `main.py`'s `extract_links` applied to one raw
`href`: only the netloc filter. -/
def keepMain (base_url BASE_URL h : String) : Bool :=
  decide ((urlparse (urljoin base_url (pyStrip h))).netloc = (urlparse BASE_URL).netloc)

/-- The normalized URL a kept `href` contributes. -/
def linkVal (base_url h : String) : String := normalizeUrl (urljoin base_url (pyStrip h))

/-- The last path segment (everything after the last `'/'`, or the whole
path when it has no `'/'`). -/
def lastSeg (p : List Char) : List Char :=
  (p.reverse.takeWhile (fun c => c != '/')).reverse

/-- Recognizer for the ASCII uppercase letters (`lowerChar`'s domain of
action). -/
def upperAscii (c : Char) : Bool :=
  decide (c = 'A') || decide (c = 'B') || decide (c = 'C') || decide (c = 'D') ||
  decide (c = 'E') || decide (c = 'F') || decide (c = 'G') || decide (c = 'H') ||
  decide (c = 'I') || decide (c = 'J') || decide (c = 'K') || decide (c = 'L') ||
  decide (c = 'M') || decide (c = 'N') || decide (c = 'O') || decide (c = 'P') ||
  decide (c = 'Q') || decide (c = 'R') || decide (c = 'S') || decide (c = 'T') ||
  decide (c = 'U') || decide (c = 'V') || decide (c = 'W') || decide (c = 'X') ||
  decide (c = 'Y') || decide (c = 'Z')

/-! ## General list helper lemmas -/

theorem set_getD_self {α : Type} (l : List α) (i : Nat) (d : α) (h : i < l.length) :
    l.set i (l.getD i d) = l := by
  apply List.ext_getElem?
  intro j
  by_cases hij : i = j
  · subst hij
    rw [List.getElem?_set_self h, List.getD_eq_getElem l d h, List.getElem?_eq_getElem h]
  · rw [List.getElem?_set_ne hij]

theorem getD_set_self {α : Type} (l : List α) (i : Nat) (a d : α) (h : i < l.length) :
    (l.set i a).getD i d = a := by
  rw [List.getD_eq_getElem?_getD, List.getElem?_set_self h, Option.getD_some]

theorem getD_set_ne {α : Type} (l : List α) {i j : Nat} (hij : i ≠ j) (a d : α) :
    (l.set i a).getD j d = l.getD j d := by
  rw [List.getD_eq_getElem?_getD, List.getElem?_set_ne hij, ← List.getD_eq_getElem?_getD]

theorem getD_replicate_self {α : Type} (n j : Nat) (d : α) :
    (List.replicate n d).getD j d = d := by
  induction n generalizing j with
  | zero => rfl
  | succ n ih =>
    cases j with
    | zero => rfl
    | succ j => exact ih j

/-! ## Table extraction (claim C5) -/

theorem rowFill_cons (r : List String) (q : Nat × HNode) (rest : List (Nat × HNode))
    (mc : Nat) :
    rowFill r (q :: rest) mc =
      rowFill (if q.1 < mc then r.set q.1 (getText q.2) else r) rest mc := rfl

theorem rowFill_length (mc : Nat) :
    ∀ (cellsE : List (Nat × HNode)) (r : List String),
      (rowFill r cellsE mc).length = r.length := by
  intro cellsE
  induction cellsE with
  | nil => intro r; rfl
  | cons q rest ih =>
    intro r
    rw [rowFill_cons]
    by_cases hq : q.1 < mc
    · rw [if_pos hq, ih, List.length_set]
    · rw [if_neg hq, ih]

theorem fill_inner_eq (mc i : Nat) :
    ∀ (cellsE : List (Nat × HNode)) (g : List (List String)), i < g.length →
      cellsE.foldl (fun g3 q => if q.1 < mc then setCell g3 i q.1 (getText q.2) else g3) g =
        g.set i (rowFill (g.getD i []) cellsE mc) := by
  intro cellsE
  induction cellsE with
  | nil =>
    intro g hg
    exact (set_getD_self g i [] hg).symm
  | cons q rest ih =>
    intro g hg
    rw [List.foldl_cons, rowFill_cons]
    by_cases hq : q.1 < mc
    · rw [if_pos hq, if_pos hq]
      have hsc : setCell g i q.1 (getText q.2) =
          g.set i ((g.getD i []).set q.1 (getText q.2)) := rfl
      have hlen : i < (setCell g i q.1 (getText q.2)).length := by
        rw [hsc, List.length_set]; exact hg
      rw [ih _ hlen, hsc, getD_set_self g i _ [] hg, List.set_set]
    · rw [if_neg hq, if_neg hq]
      exact ih g hg

theorem fillOuterFrom_spec (mc : Nat) :
    ∀ (rs : List HNode) (k : Nat) (g : List (List String)), k + rs.length ≤ g.length →
      (fillOuterFrom mc k rs g).length = g.length ∧
      (∀ i, ¬ (k ≤ i ∧ i < k + rs.length) →
        (fillOuterFrom mc k rs g).getD i [] = g.getD i []) ∧
      (∀ i, i < rs.length →
        (fillOuterFrom mc k rs g).getD (k + i) [] =
          rowFill (g.getD (k + i) []) (rowCells (rs.getD i (HNode.text ""))).enum mc) := by
  intro rs
  induction rs with
  | nil =>
    intro k g _
    refine ⟨rfl, fun i _ => rfl, fun i hi => absurd hi (Nat.not_lt_zero i)⟩
  | cons r rs ih =>
    intro k g hlen
    have hk : k < g.length := by
      have := hlen; simp only [List.length_cons] at this; omega
    have hstep : fillOuterFrom mc k (r :: rs) g =
        fillOuterFrom mc (k + 1) rs
          (g.set k (rowFill (g.getD k []) (rowCells r).enum mc)) := by
      show (List.enumFrom k (r :: rs)).foldl _ g = _
      rw [List.enumFrom_cons, List.foldl_cons]
      rw [fill_inner_eq mc k (rowCells r).enum g hk]
      rfl
    set g1 := g.set k (rowFill (g.getD k []) (rowCells r).enum mc) with hg1
    have hlen1 : k + 1 + rs.length ≤ g1.length := by
      rw [hg1, List.length_set]
      simp only [List.length_cons] at hlen; omega
    obtain ⟨ihL, ihU, ihR⟩ := ih (k + 1) g1 hlen1
    rw [hstep]
    refine ⟨?_, ?_, ?_⟩
    · rw [ihL, hg1, List.length_set]
    · intro i hi
      have hi1 : ¬ (k + 1 ≤ i ∧ i < k + 1 + rs.length) := by
        simp only [List.length_cons] at hi; omega
      rw [ihU i hi1, hg1, getD_set_ne]
      simp only [List.length_cons] at hi; omega
    · intro i hi
      cases i with
      | zero =>
        have h0 : ¬ (k + 1 ≤ k + 0 ∧ k + 0 < k + 1 + rs.length) := by omega
        rw [ihU (k + 0) h0, hg1]
        have : k + 0 = k := by omega
        rw [this, getD_set_self g k _ [] hk]
        rfl
      | succ i =>
        have hi2 : i < rs.length := by
          simp only [List.length_cons] at hi; omega
        have hx : k + (i + 1) = (k + 1) + i := by omega
        rw [hx, ihR i hi2, hg1, getD_set_ne]
        · rfl
        · omega

theorem rowFill_enumFrom_getD (mc : Nat) :
    ∀ (cells : List HNode) (j0 : Nat) (r : List String), mc ≤ r.length →
      ∀ j, (rowFill r (List.enumFrom j0 cells) mc).getD j "" =
        if j0 ≤ j ∧ j < j0 + cells.length ∧ j < mc then
          getText (cells.getD (j - j0) (HNode.text ""))
        else r.getD j "" := by
  intro cells
  induction cells with
  | nil =>
    intro j0 r _ j
    have : ¬ (j0 ≤ j ∧ j < j0 + (List.length ([] : List HNode)) ∧ j < mc) := by
      simp only [List.length_nil]; omega
    rw [if_neg this]
    rfl
  | cons c cs ih =>
    intro j0 r hr j
    rw [List.enumFrom_cons, rowFill_cons]
    by_cases hq : j0 < mc
    · rw [if_pos hq]
      have hr1 : mc ≤ (r.set j0 (getText c)).length := by rw [List.length_set]; exact hr
      rw [ih (j0 + 1) _ hr1 j]
      by_cases hin : j0 + 1 ≤ j ∧ j < j0 + 1 + cs.length ∧ j < mc
      · rw [if_pos hin]
        have hout : j0 ≤ j ∧ j < j0 + (c :: cs).length ∧ j < mc := by
          simp only [List.length_cons]; omega
        rw [if_pos hout]
        have hsub : j - j0 = (j - (j0 + 1)) + 1 := by omega
        rw [hsub]
        rfl
      · rw [if_neg hin]
        by_cases hj : j = j0
        · subst hj
          have hout : j ≤ j ∧ j < j + (c :: cs).length ∧ j < mc := by
            simp only [List.length_cons]; omega
          rw [if_pos hout]
          have hlt : j < r.length := Nat.lt_of_lt_of_le hq hr
          rw [getD_set_self r j _ "" hlt]
          simp
        · have hout : ¬ (j0 ≤ j ∧ j < j0 + (c :: cs).length ∧ j < mc) := by
            simp only [List.length_cons]; omega
          rw [if_neg hout, getD_set_ne r (fun h => hj h.symm)]
    · rw [if_neg hq]
      rw [ih (j0 + 1) r hr j]
      by_cases hin : j0 + 1 ≤ j ∧ j < j0 + 1 + cs.length ∧ j < mc
      · rw [if_pos hin]
        have hout : j0 ≤ j ∧ j < j0 + (c :: cs).length ∧ j < mc := by
          simp only [List.length_cons]; omega
        rw [if_pos hout]
        have hsub : j - j0 = (j - (j0 + 1)) + 1 := by omega
        rw [hsub]
        rfl
      · rw [if_neg hin]
        have hout : ¬ (j0 ≤ j ∧ j < j0 + (c :: cs).length ∧ j < mc) := by
          simp only [List.length_cons]
          omega
        rw [if_neg hout]

theorem maxCols_eq (rows : List HNode) : maxColsMain rows = maxColsFast rows := by
  unfold maxColsMain maxColsFast
  have h : ∀ (m : Nat) (rs : List HNode),
      rs.foldl (fun m row => if (rowCells row).length > m then (rowCells row).length else m) m =
        rs.foldl (fun m row => max m (rowCells row).length) m := by
    intro m rs
    induction rs generalizing m with
    | nil => rfl
    | cons r rs ih =>
      rw [List.foldl_cons, List.foldl_cons, ih]
      congr 1
      rcases Nat.lt_or_ge m (rowCells r).length with h | h
      · rw [if_pos h, Nat.max_eq_right (Nat.le_of_lt h)]
      · rw [if_neg (Nat.not_lt.mpr h), Nat.max_eq_left h]
  exact h 0 rows

theorem init_le_foldl_max :
    ∀ (rows : List HNode) (m0 : Nat),
      m0 ≤ rows.foldl (fun m r => max m (rowCells r).length) m0 := by
  intro rows
  induction rows with
  | nil => intro m0; exact Nat.le_refl m0
  | cons r rs ih =>
    intro m0
    rw [List.foldl_cons]
    exact Nat.le_trans (Nat.le_max_left m0 (rowCells r).length) (ih _)

theorem cells_le_maxColsFast :
    ∀ (rows : List HNode) (m0 : Nat) (row : HNode), row ∈ rows →
      (rowCells row).length ≤ rows.foldl (fun m r => max m (rowCells r).length) m0 := by
  intro rows
  induction rows with
  | nil => intro _ _ h; cases h
  | cons r rs ih =>
    intro m0 row hrow
    rw [List.foldl_cons]
    rcases List.mem_cons.mp hrow with h | h
    · subst h
      exact Nat.le_trans (Nat.le_max_right m0 (rowCells row).length) (init_le_foldl_max rs _)
    · exact ih _ row h

theorem getD_replicate_of_lt {α : Type} {n i : Nat} (x d : α) (h : i < n) :
    (List.replicate n x).getD i d = x := by
  rw [List.getD_eq_getElem _ _ (by simpa using h), List.getElem_replicate]

theorem fillTable_eq_outer (g : List (List String)) (rows : List HNode) (mc : Nat) :
    fillTable g rows mc = fillOuterFrom mc 0 rows g := by
  unfold fillTable fillOuterFrom
  rw [List.enum_eq_enumFrom]

/-- C5: for every table, with `max_cols` the maximum cell count over its
rows: the two variants' `add_table` agree; if there are no rows or
`max_cols` is zero no table is produced (no error); otherwise the produced
grid has one row per `tr` and `max_cols` columns per row, each row's actual
cells fill positions left-to-right, every position beyond that row's cell
count stays empty, and a row's cells are only read at indices below its real
cell count. -/
theorem c5_table_grid (t : HNode) :
    add_table t = add_table_fast t ∧
    ((findAllNames ["tr"] t = [] ∨ maxColsMain (findAllNames ["tr"] t) = 0) →
      add_table t = none) ∧
    (findAllNames ["tr"] t ≠ [] → maxColsMain (findAllNames ["tr"] t) ≠ 0 →
      ∃ g, add_table t = some g ∧
        g.length = (findAllNames ["tr"] t).length ∧
        (∀ i, i < g.length → (g.getD i []).length = maxColsMain (findAllNames ["tr"] t)) ∧
        (∀ i j, i < (findAllNames ["tr"] t).length →
          j < maxColsMain (findAllNames ["tr"] t) →
          (g.getD i []).getD j "" =
            if j < (rowCells ((findAllNames ["tr"] t).getD i (HNode.text ""))).length then
              getText ((rowCells ((findAllNames ["tr"] t).getD i (HNode.text ""))).getD j
                (HNode.text ""))
            else "")) := by
  refine ⟨?_, ?_, ?_⟩
  · unfold add_table add_table_fast
    simp only [maxCols_eq]
  · intro h
    rcases h with h | h
    · simp [add_table, h]
    · by_cases hne : findAllNames ["tr"] t = []
      · simp [add_table, hne]
      · simp [add_table, hne, h]
  · intro hne hmc
    have hglen : 0 + (findAllNames ["tr"] t).length ≤
        (emptyGrid (findAllNames ["tr"] t).length (maxColsMain (findAllNames ["tr"] t))).length := by
      unfold emptyGrid
      rw [List.length_replicate]
      omega
    obtain ⟨hL, hU, hR⟩ := fillOuterFrom_spec (maxColsMain (findAllNames ["tr"] t))
      (findAllNames ["tr"] t) 0
      (emptyGrid (findAllNames ["tr"] t).length (maxColsMain (findAllNames ["tr"] t))) hglen
    have hsome : add_table t = some (fillOuterFrom (maxColsMain (findAllNames ["tr"] t)) 0
        (findAllNames ["tr"] t)
        (emptyGrid (findAllNames ["tr"] t).length (maxColsMain (findAllNames ["tr"] t)))) := by
      simp [add_table, hne, hmc, fillTable_eq_outer]
    refine ⟨_, hsome, ?_, ?_, ?_⟩
    · rw [hL]
      unfold emptyGrid
      rw [List.length_replicate]
    · intro i hi
      rw [hL] at hi
      unfold emptyGrid at hi
      rw [List.length_replicate] at hi
      have hrow := hR i hi
      rw [Nat.zero_add] at hrow
      rw [hrow, rowFill_length]
      unfold emptyGrid
      rw [getD_replicate_of_lt _ _ hi, List.length_replicate]
    · intro i j hi hj
      have hrow := hR i hi
      rw [Nat.zero_add] at hrow
      rw [hrow]
      have hrepl : (emptyGrid (findAllNames ["tr"] t).length
          (maxColsMain (findAllNames ["tr"] t))).getD i [] =
          List.replicate (maxColsMain (findAllNames ["tr"] t)) "" := by
        unfold emptyGrid
        exact getD_replicate_of_lt _ _ hi
      rw [hrepl]
      have hrlen : maxColsMain (findAllNames ["tr"] t) ≤
          (List.replicate (maxColsMain (findAllNames ["tr"] t)) "").length := by
        rw [List.length_replicate]
      rw [List.enum_eq_enumFrom, rowFill_enumFrom_getD _ _ 0 _ hrlen j]
      by_cases hc : j < (rowCells ((findAllNames ["tr"] t).getD i (HNode.text ""))).length
      · have hcond : 0 ≤ j ∧
            j < 0 + (rowCells ((findAllNames ["tr"] t).getD i (HNode.text ""))).length ∧
            j < maxColsMain (findAllNames ["tr"] t) := by
          omega
        rw [if_pos hcond, if_pos hc, Nat.sub_zero]
      · have hcond : ¬ (0 ≤ j ∧
            j < 0 + (rowCells ((findAllNames ["tr"] t).getD i (HNode.text ""))).length ∧
            j < maxColsMain (findAllNames ["tr"] t)) := by
          omega
        rw [if_neg hcond, if_neg hc]
        exact getD_replicate_self _ j ""

/-- Witness for C5 at the table with row cell counts `[3, 1, 2]` from the
spec's example. -/
theorem c5_table_grid_witness :
    (findAllNames ["tr"] (el "table"
      [el "tr" [el "td" [tx "a"], el "td" [tx "b"], el "td" [tx "c"]],
       el "tr" [el "td" [tx "d"]],
       el "tr" [el "td" [tx "e"], el "td" [tx "f"]]]) ≠ [] ∧
     maxColsMain (findAllNames ["tr"] (el "table"
      [el "tr" [el "td" [tx "a"], el "td" [tx "b"], el "td" [tx "c"]],
       el "tr" [el "td" [tx "d"]],
       el "tr" [el "td" [tx "e"], el "td" [tx "f"]]])) ≠ 0) ∧
    (∃ g, add_table (el "table"
      [el "tr" [el "td" [tx "a"], el "td" [tx "b"], el "td" [tx "c"]],
       el "tr" [el "td" [tx "d"]],
       el "tr" [el "td" [tx "e"], el "td" [tx "f"]]]) = some g ∧
      g.length = (findAllNames ["tr"] (el "table"
      [el "tr" [el "td" [tx "a"], el "td" [tx "b"], el "td" [tx "c"]],
       el "tr" [el "td" [tx "d"]],
       el "tr" [el "td" [tx "e"], el "td" [tx "f"]]])).length ∧
      (∀ i, i < g.length → (g.getD i []).length = maxColsMain (findAllNames ["tr"] (el "table"
      [el "tr" [el "td" [tx "a"], el "td" [tx "b"], el "td" [tx "c"]],
       el "tr" [el "td" [tx "d"]],
       el "tr" [el "td" [tx "e"], el "td" [tx "f"]]]))) ∧
      (∀ i j, i < (findAllNames ["tr"] (el "table"
      [el "tr" [el "td" [tx "a"], el "td" [tx "b"], el "td" [tx "c"]],
       el "tr" [el "td" [tx "d"]],
       el "tr" [el "td" [tx "e"], el "td" [tx "f"]]])).length →
        j < maxColsMain (findAllNames ["tr"] (el "table"
      [el "tr" [el "td" [tx "a"], el "td" [tx "b"], el "td" [tx "c"]],
       el "tr" [el "td" [tx "d"]],
       el "tr" [el "td" [tx "e"], el "td" [tx "f"]]])) →
        ((g.getD i []).getD j "" =
          if j < (rowCells ((findAllNames ["tr"] (el "table"
      [el "tr" [el "td" [tx "a"], el "td" [tx "b"], el "td" [tx "c"]],
       el "tr" [el "td" [tx "d"]],
       el "tr" [el "td" [tx "e"], el "td" [tx "f"]]])).getD i (HNode.text ""))).length then
            getText ((rowCells ((findAllNames ["tr"] (el "table"
      [el "tr" [el "td" [tx "a"], el "td" [tx "b"], el "td" [tx "c"]],
       el "tr" [el "td" [tx "d"]],
       el "tr" [el "td" [tx "e"], el "td" [tx "f"]]])).getD i (HNode.text ""))).getD j
              (HNode.text ""))
          else ""))) :=
  ⟨⟨by decide, by decide⟩,
   (c5_table_grid (el "table"
      [el "tr" [el "td" [tx "a"], el "td" [tx "b"], el "td" [tx "c"]],
       el "tr" [el "td" [tx "d"]],
       el "tr" [el "td" [tx "e"], el "td" [tx "f"]]])).2.2 (by decide) (by decide)⟩

/-! ## The de-duplicating walk (claims C3 and C10) -/

theorem extractRun_skip {β : Type} (emit : HNode → List β) (anc : List HNode) (t : HNode)
    (rest : List (List HNode × HNode)) (proc : List HNode) (acc : List β)
    (h : ∃ a ∈ anc, a ∈ proc) :
    extractRun emit ((anc, t) :: rest) proc acc = extractRun emit rest proc acc := by
  have hb : anc.any (fun a => decide (a ∈ proc)) = true := by
    rw [List.any_eq_true]
    obtain ⟨a, ha, hm⟩ := h
    exact ⟨a, ha, by simpa using hm⟩
  simp only [extractRun, hb, if_true]

theorem extractRun_visit {β : Type} (emit : HNode → List β) (anc : List HNode) (t : HNode)
    (rest : List (List HNode × HNode)) (proc : List HNode) (acc : List β)
    (h : ∀ a ∈ anc, a ∉ proc) :
    extractRun emit ((anc, t) :: rest) proc acc =
      extractRun emit rest (proc ++ [t]) (acc ++ emit t) := by
  have hb : anc.any (fun a => decide (a ∈ proc)) = false := by
    rw [List.any_eq_false]
    intro a ha
    simpa using h a ha
  simp only [extractRun, hb, Bool.false_eq_true, if_false]

theorem extractRun_append {β : Type} (emit : HNode → List β) :
    ∀ (xs ys : List (List HNode × HNode)) (proc : List HNode) (acc : List β),
      extractRun emit (xs ++ ys) proc acc =
        extractRun emit ys (extractRun emit xs proc acc).2 (extractRun emit xs proc acc).1 := by
  intro xs
  induction xs with
  | nil => intro ys proc acc; rfl
  | cons hd rest ih =>
    intro ys proc acc
    obtain ⟨anc, t⟩ := hd
    by_cases hs : ∃ a ∈ anc, a ∈ proc
    · rw [List.cons_append, extractRun_skip emit anc t _ proc acc hs,
        extractRun_skip emit anc t _ proc acc hs, ih]
    · push_neg at hs
      rw [List.cons_append, extractRun_visit emit anc t _ proc acc hs,
        extractRun_visit emit anc t _ proc acc hs, ih]

theorem extractRun_proc_mono {β : Type} (emit : HNode → List β) :
    ∀ (xs : List (List HNode × HNode)) (proc : List HNode) (acc : List β) (a : HNode),
      a ∈ proc → a ∈ (extractRun emit xs proc acc).2 := by
  intro xs
  induction xs with
  | nil => intro proc acc a ha; exact ha
  | cons hd rest ih =>
    intro proc acc a ha
    obtain ⟨anc, t⟩ := hd
    by_cases hs : ∃ x ∈ anc, x ∈ proc
    · rw [extractRun_skip emit anc t _ proc acc hs]
      exact ih proc acc a ha
    · push_neg at hs
      rw [extractRun_visit emit anc t _ proc acc hs]
      exact ih _ _ a (List.mem_append_left _ ha)

theorem extractRun_visited_mem {β : Type} (emit : HNode → List β)
    (xs : List (List HNode × HNode)) (anc : List HNode) (t : HNode)
    (ys : List (List HNode × HNode)) (proc : List HNode) (acc : List β)
    (h : ∀ a ∈ anc, a ∉ (extractRun emit xs proc acc).2) :
    t ∈ (extractRun emit (xs ++ (anc, t) :: ys) proc acc).2 := by
  rw [extractRun_append, extractRun_visit emit anc t _ _ _ h]
  exact extractRun_proc_mono emit ys _ _ t
    (List.mem_append_right _ (List.mem_singleton.mpr rfl))

theorem extractRun_suppress {β : Type} (emit : HNode → List β)
    (xs ys zs : List (List HNode × HNode)) (anc0 anc1 : List HNode) (t0 t1 : HNode)
    (proc : List HNode) (acc : List β)
    (hvis : ∀ a ∈ anc0, a ∉ (extractRun emit xs proc acc).2)
    (hanc : t0 ∈ anc1) :
    extractRun emit (xs ++ (anc0, t0) :: ys ++ (anc1, t1) :: zs) proc acc =
      extractRun emit (xs ++ (anc0, t0) :: ys ++ zs) proc acc := by
  have hjoin : t0 ∈ (extractRun emit (xs ++ (anc0, t0) :: ys) proc acc).2 :=
    extractRun_visited_mem emit xs anc0 t0 ys proc acc hvis
  have e1 : xs ++ (anc0, t0) :: ys ++ (anc1, t1) :: zs =
      (xs ++ (anc0, t0) :: ys) ++ (anc1, t1) :: zs := by
    rw [List.append_assoc, List.cons_append]
  have e2 : xs ++ (anc0, t0) :: ys ++ zs = (xs ++ (anc0, t0) :: ys) ++ zs := by
    rw [List.append_assoc, List.cons_append]
  rw [e1, e2, extractRun_append emit (xs ++ (anc0, t0) :: ys) ((anc1, t1) :: zs) proc acc,
    extractRun_append emit (xs ++ (anc0, t0) :: ys) zs proc acc,
    extractRun_skip emit anc1 t1 zs
      (extractRun emit (xs ++ (anc0, t0) :: ys) proc acc).2
      (extractRun emit (xs ++ (anc0, t0) :: ys) proc acc).1 ⟨t0, hanc, hjoin⟩]

/-- C3: in both variants' content walks, a tag one of whose ancestors was
already visited and emitted as a content element contributes nothing to the
output (the run is unchanged if the tag's entry is deleted); in particular a
paragraph nested inside a table cell is represented only inside the table's
element, never additionally as a standalone paragraph. -/
theorem c3_nested_suppression :
    (∀ (xs ys zs : List (List HNode × HNode)) (anc0 anc1 : List HNode) (t0 t1 : HNode),
      (∀ a ∈ anc0, a ∉ (extractRun emitMain xs [] []).2) →
      emitMain t0 ≠ [] →
      t0 ∈ anc1 →
      (extractRun emitMain (xs ++ (anc0, t0) :: ys ++ (anc1, t1) :: zs) [] []).1 =
        (extractRun emitMain (xs ++ (anc0, t0) :: ys ++ zs) [] []).1) ∧
    (∀ (xs ys zs : List (List HNode × HNode)) (anc0 anc1 : List HNode) (t0 t1 : HNode),
      (∀ a ∈ anc0, a ∉ (extractRun emitFast xs [] []).2) →
      emitFast t0 ≠ [] →
      t0 ∈ anc1 →
      (extractRun emitFast (xs ++ (anc0, t0) :: ys ++ (anc1, t1) :: zs) [] []).1 =
        (extractRun emitFast (xs ++ (anc0, t0) :: ys ++ zs) [] []).1) ∧
    parse_and_save_content
      (el "html" [el "body" [el "table" [el "tr" [el "td" [el "p" [tx "hi"]]]]]]) =
      some [DocItem.table [["hi"]]] ∧
    (parse_content_and_links
      (some (el "html" [el "body" [el "table" [el "tr" [el "td" [el "p" [tx "hi"]]]]]]))
      "http://ex.com/" "http://ex.com/").1 =
      [CStruct.table (el "table" [el "tr" [el "td" [el "p" [tx "hi"]]]])] := by
  refine ⟨?_, ?_, rfl, rfl⟩
  · intro xs ys zs anc0 anc1 t0 t1 hvis _ hanc
    rw [extractRun_suppress emitMain xs ys zs anc0 anc1 t0 t1 [] [] hvis hanc]
  · intro xs ys zs anc0 anc1 t0 t1 hvis _ hanc
    rw [extractRun_suppress emitFast xs ys zs anc0 anc1 t0 t1 [] [] hvis hanc]

/-- Witness for C3: the table from the nested-paragraph example, emitted
when visited, suppresses the paragraph item carrying it as an ancestor. -/
theorem c3_nested_suppression_witness :
    ((∀ a ∈ ([] : List HNode), a ∉ (extractRun emitMain [] [] []).2) ∧
     emitMain (el "table" [el "tr" [el "td" [el "p" [tx "hi"]]]]) ≠ [] ∧
     el "table" [el "tr" [el "td" [el "p" [tx "hi"]]]] ∈
       [el "table" [el "tr" [el "td" [el "p" [tx "hi"]]]]]) ∧
    (extractRun emitMain
      ([] ++ ([], el "table" [el "tr" [el "td" [el "p" [tx "hi"]]]]) :: [] ++
        ([el "table" [el "tr" [el "td" [el "p" [tx "hi"]]]]], el "p" [tx "hi"]) :: []) [] []).1 =
      (extractRun emitMain
        ([] ++ ([], el "table" [el "tr" [el "td" [el "p" [tx "hi"]]]]) :: [] ++ []) [] []).1 :=
  ⟨⟨by simp, by decide, by decide⟩,
   c3_nested_suppression.1 [] [] [] []
     [el "table" [el "tr" [el "td" [el "p" [tx "hi"]]]]]
     (el "table" [el "tr" [el "td" [el "p" [tx "hi"]]]])
     (el "p" [tx "hi"]) (by simp) (by decide) (by decide)⟩

/-- C10: in both variants every visited (non-skipped) tag is appended to
`processed_tags` whether or not it emitted anything; consequently a tag
under a visited-but-non-emitting ancestor (a table with zero cells, a
paragraph with empty trimmed text) is also suppressed, and its content
appears nowhere in the output. -/
theorem c10_processed_regardless :
    (∀ (anc : List HNode) (t : HNode) (xs : List (List HNode × HNode))
       (proc : List HNode) (acc : List DocItem),
      (∀ a ∈ anc, a ∉ proc) → t ∈ (extractRun emitMain ((anc, t) :: xs) proc acc).2) ∧
    (∀ (anc : List HNode) (t : HNode) (xs : List (List HNode × HNode))
       (proc : List HNode) (acc : List CStruct),
      (∀ a ∈ anc, a ∉ proc) → t ∈ (extractRun emitFast ((anc, t) :: xs) proc acc).2) ∧
    (∀ (xs ys zs : List (List HNode × HNode)) (anc0 anc1 : List HNode) (t0 t1 : HNode),
      (∀ a ∈ anc0, a ∉ (extractRun emitMain xs [] []).2) →
      emitMain t0 = [] →
      t0 ∈ anc1 →
      (extractRun emitMain (xs ++ (anc0, t0) :: ys ++ (anc1, t1) :: zs) [] []).1 =
        (extractRun emitMain (xs ++ (anc0, t0) :: ys ++ zs) [] []).1) ∧
    (∀ (xs ys zs : List (List HNode × HNode)) (anc0 anc1 : List HNode) (t0 t1 : HNode),
      (∀ a ∈ anc0, a ∉ (extractRun emitFast xs [] []).2) →
      emitFast t0 = [] →
      t0 ∈ anc1 →
      (extractRun emitFast (xs ++ (anc0, t0) :: ys ++ (anc1, t1) :: zs) [] []).1 =
        (extractRun emitFast (xs ++ (anc0, t0) :: ys ++ zs) [] []).1) ∧
    parse_and_save_content (el "html" [el "body" [el "table" [el "tr" [], el "p" [tx "hi"]]]]) =
      some [] ∧
    writeContent (parse_content_and_links
      (some (el "html" [el "body" [el "table" [el "tr" [], el "p" [tx "hi"]]]]))
      "http://ex.com/" "http://ex.com/").1 = [] ∧
    parse_and_save_content
      (el "html" [el "body" [el "p" [tx "  ", el "ul" [el "li" [tx " "]]]]]) = some [] ∧
    (parse_content_and_links
      (some (el "html" [el "body" [el "p" [tx "  ", el "ul" [el "li" [tx " "]]]]]))
      "http://ex.com/" "http://ex.com/").1 = [] := by
  refine ⟨?_, ?_, ?_, ?_, rfl, rfl, rfl, rfl⟩
  · intro anc t xs proc acc h
    rw [extractRun_visit emitMain anc t xs proc acc h]
    exact extractRun_proc_mono emitMain xs _ _ t
      (List.mem_append_right _ (List.mem_singleton.mpr rfl))
  · intro anc t xs proc acc h
    rw [extractRun_visit emitFast anc t xs proc acc h]
    exact extractRun_proc_mono emitFast xs _ _ t
      (List.mem_append_right _ (List.mem_singleton.mpr rfl))
  · intro xs ys zs anc0 anc1 t0 t1 hvis _ hanc
    rw [extractRun_suppress emitMain xs ys zs anc0 anc1 t0 t1 [] [] hvis hanc]
  · intro xs ys zs anc0 anc1 t0 t1 hvis _ hanc
    rw [extractRun_suppress emitFast xs ys zs anc0 anc1 t0 t1 [] [] hvis hanc]

/-- Witness for C10: a table with a row but no cells is visited, emits
nothing in the `main.py` walk, and still suppresses the paragraph nested
inside it. -/
theorem c10_processed_regardless_witness :
    ((∀ a ∈ ([] : List HNode), a ∉ ([] : List HNode)) ∧
     (∀ a ∈ ([] : List HNode), a ∉ (extractRun emitMain [] [] []).2) ∧
     emitMain (el "table" [el "tr" [], el "p" [tx "hi"]]) = [] ∧
     el "table" [el "tr" [], el "p" [tx "hi"]] ∈ [el "table" [el "tr" [], el "p" [tx "hi"]]]) ∧
    el "table" [el "tr" [], el "p" [tx "hi"]] ∈
      (extractRun emitMain [([], el "table" [el "tr" [], el "p" [tx "hi"]])] [] []).2 ∧
    (extractRun emitMain
      ([] ++ ([], el "table" [el "tr" [], el "p" [tx "hi"]]) :: [] ++
        ([el "table" [el "tr" [], el "p" [tx "hi"]]], el "p" [tx "hi"]) :: []) [] []).1 =
      (extractRun emitMain
        ([] ++ ([], el "table" [el "tr" [], el "p" [tx "hi"]]) :: [] ++ []) [] []).1 :=
  ⟨⟨by simp, by simp, by decide, by decide⟩,
   c10_processed_regardless.1 [] (el "table" [el "tr" [], el "p" [tx "hi"]]) [] [] []
     (by simp),
   c10_processed_regardless.2.2.1 [] [] [] []
     [el "table" [el "tr" [], el "p" [tx "hi"]]]
     (el "table" [el "tr" [], el "p" [tx "hi"]])
     (el "p" [tx "hi"]) (by simp) (by decide) (by decide)⟩

/-! ## Heading tags and the name filters (claims C7 and C8) -/

mutual
theorem node_collect_name (flt : List String) :
    ∀ (n : HNode) (anc ancs : List HNode) (t : HNode),
      (ancs, t) ∈ HNode.collectTags flt n anc → HNode.nodeName t ∈ flt
  | .text _, _, _, _ => fun h => absurd h (by simp [HNode.collectTags])
  | .elem nm a ch, anc, ancs, t => fun h => by
    simp only [HNode.collectTags] at h
    rcases List.mem_append.mp h with h1 | h2
    · by_cases hf : nm ∈ flt
      · rw [if_pos hf] at h1
        have h3 := List.mem_singleton.mp h1
        cases h3
        simpa [HNode.nodeName] using hf
      · rw [if_neg hf] at h1
        cases h1
    · exact forest_collect_name flt ch _ ancs t h2
theorem forest_collect_name (flt : List String) :
    ∀ (f : HForest) (anc ancs : List HNode) (t : HNode),
      (ancs, t) ∈ HForest.collectTags flt f anc → HNode.nodeName t ∈ flt
  | .nil, _, _, _ => fun h => absurd h (by simp [HForest.collectTags])
  | .cons c cs, anc, ancs, t => fun h => by
    simp only [HForest.collectTags] at h
    rcases List.mem_append.mp h with h1 | h2
    · exact node_collect_name flt c anc ancs t h1
    · exact forest_collect_name flt cs anc ancs t h2
end

/-- Counterexample to C7 as stated: in `faster.py` an `h5` heading tag is
not visited at all — the page's extracted content is empty and in particular
contains no level-4 heading. -/
theorem c7_counterexample :
    (parse_content_and_links (some (el "html" [el "body" [el "h5" [tx "T"]]]))
      "http://ex.com/" "http://ex.com/").1 = [] ∧
    CStruct.heading "T" 4 ∉
      (parse_content_and_links (some (el "html" [el "body" [el "h5" [tx "T"]]]))
        "http://ex.com/" "http://ex.com/").1 :=
  ⟨rfl, by decide⟩

/-- C7 amended: in `main.py` the walk visits heading tags of all levels
1-6 and emits levels clamped to 4 (`h5`, `h6` give level 4); in `faster.py`
only `h1`-`h4` are in the walk's filter, a visited tag always has a filter
name (so `h5`/`h6` tags are never visited and produce nothing), and the
six-level page yields only the four headings `h1`-`h4`. -/
theorem c7_amended_heading_levels :
    parse_and_save_content
      (el "html" [el "body"
        [el "h1" [tx "t1"], el "h2" [tx "t2"], el "h3" [tx "t3"],
         el "h4" [tx "t4"], el "h5" [tx "t5"], el "h6" [tx "t6"]]]) =
      some [DocItem.heading "t1" 1, DocItem.heading "t2" 2, DocItem.heading "t3" 3,
            DocItem.heading "t4" 4, DocItem.heading "t5" 4, DocItem.heading "t6" 4] ∧
    (∀ (a : List (String × String)) (ch : HForest),
      emitMain (.elem "h5" a ch) = [DocItem.heading (getText (.elem "h5" a ch)) 4] ∧
      emitMain (.elem "h6" a ch) = [DocItem.heading (getText (.elem "h6" a ch)) 4]) ∧
    (∀ (n : HNode) (anc ancs : List HNode) (t : HNode),
      (ancs, t) ∈ HNode.collectTags fastFilter n anc →
        HNode.nodeName t ≠ "h5" ∧ HNode.nodeName t ≠ "h6") ∧
    (parse_content_and_links
      (some (el "html" [el "body"
        [el "h1" [tx "t1"], el "h2" [tx "t2"], el "h3" [tx "t3"],
         el "h4" [tx "t4"], el "h5" [tx "t5"], el "h6" [tx "t6"]]]))
      "http://ex.com/" "http://ex.com/").1 =
      [CStruct.heading "t1" 1, CStruct.heading "t2" 2, CStruct.heading "t3" 3,
       CStruct.heading "t4" 4] := by
  refine ⟨rfl, fun a ch => ⟨rfl, rfl⟩, ?_, rfl⟩
  intro n anc ancs t h
  have hmem := node_collect_name fastFilter n anc ancs t h
  constructor
  · intro he
    rw [he] at hmem
    exact absurd hmem (by decide)
  · intro he
    rw [he] at hmem
    exact absurd hmem (by decide)

/-- Witness for C7 (amended): an `h1` tag really is visited by the
`faster.py` filter, and its name is neither `h5` nor `h6`. -/
theorem c7_amended_heading_levels_witness :
    (([el "body" [el "h1" [tx "a"]]], el "h1" [tx "a"]) ∈
      HNode.collectTags fastFilter (el "body" [el "h1" [tx "a"]]) []) ∧
    (HNode.nodeName (el "h1" [tx "a"]) ≠ "h5" ∧ HNode.nodeName (el "h1" [tx "a"]) ≠ "h6") :=
  ⟨by decide,
   c7_amended_heading_levels.2.2.1 (el "body" [el "h1" [tx "a"]]) []
     [el "body" [el "h1" [tx "a"]]] (el "h1" [tx "a"]) (by decide)⟩

/-- C8: a heading tag whose numeric level suffix is malformed (the name
starts with `h` but is not `h` followed by a digit) is not in either
variant's walk filter, every visited tag's name is in the filter (so a
malformed heading tag produces no element at all), and extraction of the
rest of the page proceeds: a page with an `hx` tag still yields its other
elements. -/
theorem c8_malformed_heading_skipped :
    (∀ nm : String, startsWithH nm = true →
      (∀ c : Char, nm.data = ['h', c] → c.isDigit = false) →
      nm ∉ mainFilter ∧ nm ∉ fastFilter) ∧
    (∀ (flt : List String) (n : HNode) (anc ancs : List HNode) (t : HNode),
      (ancs, t) ∈ HNode.collectTags flt n anc → HNode.nodeName t ∈ flt) ∧
    parse_and_save_content
      (el "html" [el "body" [el "hx" [tx "bad"], el "p" [tx "ok"]]]) =
      some [DocItem.para "ok" none] ∧
    (parse_content_and_links
      (some (el "html" [el "body" [el "hx" [tx "bad"], el "p" [tx "ok"]]]))
      "http://ex.com/" "http://ex.com/").1 = [CStruct.paragraph "ok"] := by
  refine ⟨?_, node_collect_name, rfl, rfl⟩
  intro nm h1 h2
  constructor
  · intro hmem
    fin_cases hmem
    · exact absurd (h2 '1' rfl) (by decide)
    · exact absurd (h2 '2' rfl) (by decide)
    · exact absurd (h2 '3' rfl) (by decide)
    · exact absurd (h2 '4' rfl) (by decide)
    · exact absurd (h2 '5' rfl) (by decide)
    · exact absurd (h2 '6' rfl) (by decide)
    · exact absurd h1 (by decide)
    · exact absurd h1 (by decide)
    · exact absurd h1 (by decide)
    · exact absurd h1 (by decide)
  · intro hmem
    fin_cases hmem
    · exact absurd (h2 '1' rfl) (by decide)
    · exact absurd (h2 '2' rfl) (by decide)
    · exact absurd (h2 '3' rfl) (by decide)
    · exact absurd (h2 '4' rfl) (by decide)
    · exact absurd h1 (by decide)
    · exact absurd h1 (by decide)
    · exact absurd h1 (by decide)
    · exact absurd h1 (by decide)

/-- Witness for C8 at the malformed heading name `hx`. -/
theorem c8_malformed_heading_skipped_witness :
    (startsWithH "hx" = true ∧ (∀ c : Char, "hx".data = ['h', c] → c.isDigit = false)) ∧
    ("hx" ∉ mainFilter ∧ "hx" ∉ fastFilter) := by
  have h2 : ∀ c : Char, "hx".data = ['h', c] → c.isDigit = false := by
    intro c hc
    have hc2 : (['h', 'x'] : List Char) = ['h', c] := hc
    have hx : ('x' : Char) = c := by
      have h3 := congrArg (fun l : List Char => l.getD 1 ' ') hc2
      simpa using h3
    rw [← hx]
    decide
  exact ⟨⟨by decide, h2⟩, c8_malformed_heading_skipped.1 "hx" (by decide) h2⟩

/-! ## Rendering-resource lifecycle (claim C4) -/

theorem navCount_append (a b : List REv) (d : Nat) :
    navCount (a ++ b) d = navCount a d + navCount b d := by
  unfold navCount
  rw [List.filter_append, List.length_append]

theorem navCount_workerTrace (d k : Nat) (url : String) (ok : Bool) :
    navCount (workerTrace k url ok) d = if d = k then 1 else 0 := by
  unfold navCount workerTrace
  by_cases h : k = d
  · subst h
    simp
  · rw [if_neg (fun e => h e.symm)]
    simp [List.filter, h]

theorem navCount_fasterDriverTrace (d : Nat) :
    ∀ (pages : List (String × Bool)) (k : Nat),
      navCount (fasterDriverTrace k pages) d =
        if k ≤ d ∧ d < k + pages.length then 1 else 0 := by
  intro pages
  induction pages with
  | nil =>
    intro k
    have : ¬ (k ≤ d ∧ d < k + List.length ([] : List (String × Bool))) := by
      simp only [List.length_nil]; omega
    rw [if_neg this]
    rfl
  | cons p rest ih =>
    intro k
    obtain ⟨u, ok⟩ := p
    show navCount (workerTrace k u ok ++ fasterDriverTrace (k + 1) rest) d = _
    rw [navCount_append, navCount_workerTrace, ih (k + 1)]
    by_cases h1 : d = k
    · subst h1
      have h2 : ¬ (d + 1 ≤ d ∧ d < d + 1 + rest.length) := by omega
      have h3 : d ≤ d ∧ d < d + (rest.length + 1) := by omega
      rw [if_pos rfl, if_neg h2, if_pos (by simp)]
    · rw [if_neg h1]
      by_cases h2 : k + 1 ≤ d ∧ d < k + 1 + rest.length
      · have h3 : k ≤ d ∧ d < k + (rest.length + 1) := by omega
        rw [if_pos h2, if_pos (by simpa using h3)]
      · have h3 : ¬ (k ≤ d ∧ d < k + (rest.length + 1)) := by omega
        rw [if_neg h2, if_neg (by simpa using h3)]

/-- Counterexample to C4 as stated: in `main.py` the two fetches of a
two-page crawl run on the same global driver instance, so no fetch has a
dedicated rendering resource. -/
theorem c4_counterexample : ¬ DedicatedPerFetch (mainDriverTrace ["a", "b"]) :=
  fun h => absurd (h 0) (by decide)

/-- C4 amended: in `faster.py` every fetch runs on its own freshly acquired
driver (each driver id is navigated at most once across the run) and the
driver is released as the last event of the worker on both the success and
the failure path; in `main.py` one global driver (id 0) is acquired once,
navigated for every crawled URL, and released only once, at the end of the
run. -/
theorem c4_amended_driver_lifecycle :
    (∀ (k : Nat) (pages : List (String × Bool)), DedicatedPerFetch (fasterDriverTrace k pages)) ∧
    (∀ (d : Nat) (url : String) (ok : Bool),
      (workerTrace d url ok).getLast? = some (REv.release d) ∧
      (workerTrace d url ok).head? = some (REv.acquire d)) ∧
    (∀ (urls : List String),
      navCount (mainDriverTrace urls) 0 = urls.length ∧
      (mainDriverTrace urls).count (REv.acquire 0) = 1 ∧
      (mainDriverTrace urls).getLast? = some (REv.release 0)) := by
  refine ⟨?_, fun d url ok => ⟨rfl, rfl⟩, ?_⟩
  · intro k pages d
    rw [navCount_fasterDriverTrace]
    by_cases h : k ≤ d ∧ d < k + pages.length
    · rw [if_pos h]
    · rw [if_neg h]
      omega
  · intro urls
    refine ⟨?_, ?_, ?_⟩
    · unfold mainDriverTrace navCount
      simp only [List.filter_cons]
      norm_num
      have h1 : List.filter
          (fun e => match e with | REv.navigate d2 _ => decide (d2 = 0) | _ => false)
          (urls.map fun u => REv.navigate 0 u) = urls.map fun u => REv.navigate 0 u := by
        apply List.filter_eq_self.mpr
        intro e he
        obtain ⟨u, _, he2⟩ := List.mem_map.mp he
        rw [← he2]
        simp
      rw [h1]
      simp
    · unfold mainDriverTrace
      rw [List.count_cons]
      have h1 : (urls.map (fun u => REv.navigate 0 u) ++ [REv.release 0]).count
          (REv.acquire 0) = 0 := by
        apply List.count_eq_zero.mpr
        intro hmem
        rcases List.mem_append.mp hmem with h | h
        · obtain ⟨u, _, he⟩ := List.mem_map.mp h
          cases he
        · rcases List.mem_singleton.mp h
      rw [h1]
      simp
    · show ((REv.acquire 0 :: urls.map fun u => REv.navigate 0 u) ++
        [REv.release 0]).getLast? = _
      rw [List.getLast?_concat]

/-! ## Claim discipline of both crawl loops (claim C1) -/

theorem runClaims_spec {α : Type} [DecidableEq α] :
    ∀ (events : List α) (v0 : List α), v0.Nodup →
      ((runClaims events v0).1.Nodup ∧
       (runClaims events v0).2.Nodup ∧
       (∀ x ∈ (runClaims events v0).2, x ∉ v0) ∧
       (∀ x, (runClaims events v0).2.count x ≤ 1) ∧
       (∀ x, x ∈ (runClaims events v0).1 ↔ x ∈ v0 ∨ x ∈ (runClaims events v0).2)) := by
  intro events
  induction events with
  | nil =>
    intro v0 h0
    refine ⟨h0, List.nodup_nil, fun x hx => absurd hx (List.not_mem_nil x), ?_, ?_⟩
    · intro x
      show ([] : List α).count x ≤ 1
      simp
    · intro x
      show x ∈ v0 ↔ x ∈ v0 ∨ x ∈ ([] : List α)
      simp
  | cons u us ih =>
    intro v0 h0
    by_cases hu : u ∈ v0
    · have he : runClaims (u :: us) v0 = runClaims us v0 := by
        simp only [runClaims, if_pos hu]
      rw [he]
      exact ih v0 h0
    · have he : runClaims (u :: us) v0 =
          ((runClaims us (u :: v0)).1, u :: (runClaims us (u :: v0)).2) := by
        simp only [runClaims, if_neg hu]
      obtain ⟨n1, n2, hdisj, hcount, hiff⟩ := ih (u :: v0) (List.nodup_cons.mpr ⟨hu, h0⟩)
      rw [he]
      have hunotin : u ∉ (runClaims us (u :: v0)).2 := fun hmem =>
        (hdisj u hmem) (List.mem_cons_self u v0)
      refine ⟨n1, List.nodup_cons.mpr ⟨hunotin, n2⟩, ?_, ?_, ?_⟩
      · intro x hx
        rcases List.mem_cons.mp hx with h | h
        · subst h; exact hu
        · intro hv; exact (hdisj x h) (List.mem_cons_of_mem u hv)
      · intro x
        rw [List.count_cons]
        by_cases hx : x = u
        · subst hx
          have hz : (runClaims us (x :: v0)).2.count x = 0 := List.count_eq_zero.mpr hunotin
          rw [hz]
          simp
        · have hc2 := hcount x
          have hbe : (u == x) = false := beq_eq_false_iff_ne.mpr (fun e => hx e.symm)
          simp only [hbe, Bool.false_eq_true, if_false, Nat.add_zero]
          exact hc2
      · intro x
        rw [hiff x]
        constructor
        · rintro (h | h)
          · rcases List.mem_cons.mp h with h2 | h2
            · exact Or.inr (h2 ▸ List.mem_cons_self x _)
            · exact Or.inl h2
          · exact Or.inr (List.mem_cons_of_mem u h)
        · rintro (h | h)
          · exact Or.inl (List.mem_cons_of_mem u h)
          · rcases List.mem_cons.mp h with h2 | h2
            · exact Or.inl (h2 ▸ List.mem_cons_self x _)
            · exact Or.inr h2

theorem crawlRec_spec {α : Type} [DecidableEq α] (links : α → List α) (max_depth : Nat) :
    ∀ (fuel : Nat) (v : List α) (url : α) (depth : Nat), v.Nodup →
      ((crawlRec links max_depth fuel v url depth).1.Nodup ∧
       (∀ x ∈ v, x ∈ (crawlRec links max_depth fuel v url depth).1) ∧
       (crawlRec links max_depth fuel v url depth).2.Nodup ∧
       (∀ x ∈ (crawlRec links max_depth fuel v url depth).2,
         x ∈ (crawlRec links max_depth fuel v url depth).1 ∧ x ∉ v)) := by
  intro fuel
  induction fuel with
  | zero =>
    intro v url depth hv
    exact ⟨hv, fun x hx => hx, List.nodup_nil, fun x hx => absurd hx (List.not_mem_nil x)⟩
  | succ fuel ih =>
    intro v url depth hv
    by_cases hc : url ∈ v ∨ max_depth < depth
    · have he : crawlRec links max_depth (fuel + 1) v url depth = (v, []) := by
        simp only [crawlRec, if_pos hc]
      rw [he]
      exact ⟨hv, fun x hx => hx, List.nodup_nil, fun x hx => absurd hx (List.not_mem_nil x)⟩
    · have hurl : url ∉ v := fun h => hc (Or.inl h)
      have he : crawlRec links max_depth (fuel + 1) v url depth =
          (links url).foldl
            (fun p link =>
              if link ∈ p.1 then p
              else
                let r := crawlRec links max_depth fuel p.1 link (depth + 1)
                (r.1, p.2 ++ r.2))
            (url :: v, [url]) := by
        simp only [crawlRec, if_neg hc]
      rw [he]
      have hinit : (url :: v, ([url] : List α)).1.Nodup ∧
          (∀ x ∈ url :: v, x ∈ (url :: v, ([url] : List α)).1) ∧
          (url :: v, ([url] : List α)).2.Nodup ∧
          (∀ x ∈ (url :: v, ([url] : List α)).2,
            x ∈ (url :: v, ([url] : List α)).1 ∧ x ∉ v) := by
        refine ⟨List.nodup_cons.mpr ⟨hurl, hv⟩, fun x hx => hx, List.nodup_singleton url, ?_⟩
        intro x hx
        rcases List.mem_singleton.mp hx
        exact ⟨List.mem_cons_self url v, hurl⟩
      have hfold := List.foldlRecOn (links url)
        (fun p link =>
          if link ∈ p.1 then p
          else
            let r := crawlRec links max_depth fuel p.1 link (depth + 1)
            (r.1, p.2 ++ r.2))
        (url :: v, ([url] : List α))
        (motive := fun p => p.1.Nodup ∧ (∀ x ∈ url :: v, x ∈ p.1) ∧ p.2.Nodup ∧
          (∀ x ∈ p.2, x ∈ p.1 ∧ x ∉ v))
        hinit
        (by
          intro p hp link _
          dsimp only
          by_cases hl : link ∈ p.1
          · rw [if_pos hl]
            exact hp
          · rw [if_neg hl]
            obtain ⟨hp1, hp2, hp3, hp4⟩ := hp
            obtain ⟨hr1, hr2, hr3, hr4⟩ := ih p.1 link (depth + 1) hp1
            refine ⟨hr1, fun x hx => hr2 x (hp2 x hx), ?_, ?_⟩
            · rw [List.nodup_append]
              refine ⟨hp3, hr3, ?_⟩
              intro x hxp hxr
              exact (hr4 x hxr).2 (hp4 x hxp).1
            · intro x hx
              rcases List.mem_append.mp hx with h | h
              · exact ⟨hr2 x (hp4 x h).1, (hp4 x h).2⟩
              · refine ⟨(hr4 x h).1, fun hxv => (hr4 x h).2 ?_⟩
                exact hp2 x (List.mem_cons_of_mem url hxv))
      obtain ⟨f1, f2, f3, f4⟩ := hfold
      exact ⟨f1, fun x hx => f2 x (List.mem_cons_of_mem url hx), f3, f4⟩

/-- C1: in the worker-pool variant, any serialized sequence of atomic
claim steps from a duplicate-free visited set keeps it duplicate-free,
schedules a URL only if it was absent from `visited` at claim time, and
schedules (hence fetches) each URL at most once; in the recursive variant,
`crawl` likewise keeps `visited` duplicate-free and its fetch log repeats no
URL and never refetches an already-visited one. -/
theorem c1_dedup_claim_once :
    (∀ (α : Type) [DecidableEq α] (events : List α) (v0 : List α), v0.Nodup →
      ((runClaims events v0).1.Nodup ∧
       (runClaims events v0).2.Nodup ∧
       (∀ x ∈ (runClaims events v0).2, x ∉ v0) ∧
       (∀ x, (runClaims events v0).2.count x ≤ 1) ∧
       (∀ x, x ∈ (runClaims events v0).1 ↔ x ∈ v0 ∨ x ∈ (runClaims events v0).2))) ∧
    (∀ (α : Type) [DecidableEq α] (links : α → List α) (max_depth fuel : Nat)
       (v : List α) (url : α) (depth : Nat), v.Nodup →
      ((crawlRec links max_depth fuel v url depth).1.Nodup ∧
       (crawlRec links max_depth fuel v url depth).2.Nodup ∧
       (∀ x ∈ (crawlRec links max_depth fuel v url depth).2,
         x ∉ v ∧ (crawlRec links max_depth fuel v url depth).2.count x = 1))) := by
  constructor
  · intro α _ events v0 h0
    exact runClaims_spec events v0 h0
  · intro α _ links max_depth fuel v url depth hv
    obtain ⟨h1, _, h3, h4⟩ := crawlRec_spec links max_depth fuel v url depth hv
    exact ⟨h1, h3, fun x hx => ⟨(h4 x hx).2, List.count_eq_one_of_mem h3 hx⟩⟩

/-- Witness for C1: the claim sequence `A, B, A` starting from an empty
visited set, and the recursive crawl of the three-page scenario. -/
theorem c1_dedup_claim_once_witness :
    ([] : List String).Nodup ∧
    ((runClaims ["A", "B", "A"] ([] : List String)).1.Nodup ∧
     (runClaims ["A", "B", "A"] ([] : List String)).2.Nodup ∧
     (∀ x ∈ (runClaims ["A", "B", "A"] ([] : List String)).2, x ∉ ([] : List String)) ∧
     (∀ x, (runClaims ["A", "B", "A"] ([] : List String)).2.count x ≤ 1) ∧
     (∀ x, x ∈ (runClaims ["A", "B", "A"] ([] : List String)).1 ↔
       x ∈ ([] : List String) ∨ x ∈ (runClaims ["A", "B", "A"] ([] : List String)).2)) ∧
    ((crawlRec scenLinks 200 10 ([] : List String) "A" 0).1.Nodup ∧
     (crawlRec scenLinks 200 10 ([] : List String) "A" 0).2.Nodup ∧
     (∀ x ∈ (crawlRec scenLinks 200 10 ([] : List String) "A" 0).2,
       x ∉ ([] : List String) ∧
       (crawlRec scenLinks 200 10 ([] : List String) "A" 0).2.count x = 1)) :=
  ⟨List.nodup_nil,
   c1_dedup_claim_once.1 String ["A", "B", "A"] [] List.nodup_nil,
   c1_dedup_claim_once.2 String scenLinks 200 10 [] "A" 0 List.nodup_nil⟩

/-! ## Worker-pool crawl: termination and completeness (claim C2) -/

theorem claimAll_fetched {α : Type} [DecidableEq α] :
    ∀ (ls : List α) (s : WLState α), (claimAll ls s).fetched = s.fetched := by
  intro ls
  induction ls with
  | nil => intro s; rfl
  | cons l ls ih =>
    intro s
    by_cases hl : l ∈ s.visited
    · simp only [claimAll, if_pos hl]
      exact ih s
    · simp only [claimAll, if_neg hl]
      exact ih _

theorem claimAll_visited_iff {α : Type} [DecidableEq α] :
    ∀ (ls : List α) (s : WLState α) (x : α),
      x ∈ (claimAll ls s).visited ↔ x ∈ s.visited ∨ x ∈ ls := by
  intro ls
  induction ls with
  | nil =>
    intro s x
    simp [claimAll]
  | cons l ls ih =>
    intro s x
    by_cases hl : l ∈ s.visited
    · simp only [claimAll, if_pos hl]
      rw [ih s x]
      constructor
      · rintro (h | h)
        · exact Or.inl h
        · exact Or.inr (List.mem_cons_of_mem l h)
      · rintro (h | h)
        · exact Or.inl h
        · rcases List.mem_cons.mp h with h2 | h2
          · exact Or.inl (h2 ▸ hl)
          · exact Or.inr h2
    · simp only [claimAll, if_neg hl]
      rw [ih _ x]
      simp only [List.mem_cons]
      tauto

theorem claimAll_queue_iff {α : Type} [DecidableEq α] :
    ∀ (ls : List α) (s : WLState α) (x : α),
      x ∈ (claimAll ls s).queue ↔ x ∈ s.queue ∨ (x ∈ ls ∧ x ∉ s.visited) := by
  intro ls
  induction ls with
  | nil =>
    intro s x
    simp [claimAll]
  | cons l ls ih =>
    intro s x
    by_cases hl : l ∈ s.visited
    · simp only [claimAll, if_pos hl]
      rw [ih s x]
      simp only [List.mem_cons]
      constructor
      · rintro (h | ⟨h1, h2⟩)
        · exact Or.inl h
        · exact Or.inr ⟨Or.inr h1, h2⟩
      · rintro (h | ⟨h1 | h1, h2⟩)
        · exact Or.inl h
        · exact absurd (h1 ▸ hl) h2
        · exact Or.inr ⟨h1, h2⟩
    · simp only [claimAll, if_neg hl]
      rw [ih _ x]
      constructor
      · rintro (h | ⟨h1, h2⟩)
        · rcases List.mem_append.mp h with h3 | h3
          · exact Or.inl h3
          · rcases List.mem_singleton.mp h3
            exact Or.inr ⟨List.mem_cons_self l ls, hl⟩
        · exact Or.inr ⟨List.mem_cons_of_mem l h1, fun hv => h2 (List.mem_cons_of_mem l hv)⟩
      · rintro (h | ⟨h1, h2⟩)
        · exact Or.inl (List.mem_append_left _ h)
        · rcases List.mem_cons.mp h1 with h3 | h3
          · subst h3
            exact Or.inl (List.mem_append_right _ (List.mem_singleton.mpr rfl))
          · by_cases hxl : x = l
            · subst hxl
              exact Or.inl (List.mem_append_right _ (List.mem_singleton.mpr rfl))
            · refine Or.inr ⟨h3, fun hv => ?_⟩
              rcases List.mem_cons.mp hv with h4 | h4
              · exact hxl h4
              · exact h2 h4

theorem claimAll_visited_nodup {α : Type} [DecidableEq α] :
    ∀ (ls : List α) (s : WLState α), s.visited.Nodup → (claimAll ls s).visited.Nodup := by
  intro ls
  induction ls with
  | nil => intro s h; exact h
  | cons l ls ih =>
    intro s h
    by_cases hl : l ∈ s.visited
    · simp only [claimAll, if_pos hl]
      exact ih s h
    · simp only [claimAll, if_neg hl]
      exact ih _ (List.nodup_cons.mpr ⟨hl, h⟩)

theorem claimAll_fq {α : Type} [DecidableEq α] :
    ∀ (ls : List α) (s : WLState α),
      ((s.fetched ++ s.queue).Nodup ∧ (∀ x, x ∈ s.fetched ∨ x ∈ s.queue → x ∈ s.visited)) →
      (((claimAll ls s).fetched ++ (claimAll ls s).queue).Nodup ∧
       (∀ x, x ∈ (claimAll ls s).fetched ∨ x ∈ (claimAll ls s).queue →
         x ∈ (claimAll ls s).visited)) := by
  intro ls
  induction ls with
  | nil => intro s h; exact h
  | cons l ls ih =>
    intro s h
    obtain ⟨hnd, hmem⟩ := h
    by_cases hl : l ∈ s.visited
    · simp only [claimAll, if_pos hl]
      exact ih s ⟨hnd, hmem⟩
    · simp only [claimAll, if_neg hl]
      apply ih
      constructor
      · show (s.fetched ++ (s.queue ++ [l])).Nodup
        rw [← List.append_assoc]
        rw [List.nodup_append]
        refine ⟨hnd, List.nodup_singleton l, ?_⟩
        intro x hx hxl
        rcases List.mem_singleton.mp hxl
        rcases List.mem_append.mp hx with h2 | h2
        · exact hl (hmem l (Or.inl h2))
        · exact hl (hmem l (Or.inr h2))
      · intro x hx
        rcases hx with h2 | h2
        · exact List.mem_cons_of_mem l (hmem x (Or.inl h2))
        · rcases List.mem_append.mp h2 with h3 | h3
          · exact List.mem_cons_of_mem l (hmem x (Or.inr h3))
          · rcases List.mem_singleton.mp h3
            exact List.mem_cons_self l _

theorem filter_notmem_cons_lt {α : Type} [DecidableEq α] (U : List α) (l : α) (v : List α)
    (hU : l ∈ U) (hv : l ∉ v) :
    (U.filter (fun x => decide (x ∉ l :: v))).length + 1 ≤
      (U.filter (fun x => decide (x ∉ v))).length := by
  have hsub : (U.filter (fun x => decide (x ∉ l :: v))).Sublist
      (U.filter (fun x => decide (x ∉ v))) := by
    apply List.monotone_filter_right
    intro a ha
    rw [decide_eq_true_iff] at ha ⊢
    intro hav
    exact ha (List.mem_cons_of_mem l hav)
  have hlm : l ∈ U.filter (fun x => decide (x ∉ v)) :=
    List.mem_filter.mpr ⟨hU, by simpa using hv⟩
  have hln : l ∉ U.filter (fun x => decide (x ∉ l :: v)) := by
    intro h
    have := (List.mem_filter.mp h).2
    rw [decide_eq_true_iff] at this
    exact this (List.mem_cons_self l v)
  have hle := hsub.length_le
  rcases Nat.lt_or_ge (U.filter (fun x => decide (x ∉ l :: v))).length
    (U.filter (fun x => decide (x ∉ v))).length with h | h
  · omega
  · have heq : (U.filter (fun x => decide (x ∉ l :: v))).length =
        (U.filter (fun x => decide (x ∉ v))).length := by omega
    have := hsub.eq_of_length heq
    rw [this] at hln
    exact absurd hlm hln

theorem claimAll_measure {α : Type} [DecidableEq α] (U : List α) :
    ∀ (ls : List α) (s : WLState α), (∀ l ∈ ls, l ∈ U) →
      wlMeasure U (claimAll ls s) ≤ wlMeasure U s := by
  intro ls
  induction ls with
  | nil => intro s _; exact Nat.le_refl _
  | cons l ls ih =>
    intro s hls
    by_cases hl : l ∈ s.visited
    · simp only [claimAll, if_pos hl]
      exact ih s (fun x hx => hls x (List.mem_cons_of_mem l hx))
    · simp only [claimAll, if_neg hl]
      have h1 := ih ⟨l :: s.visited, s.queue ++ [l], s.fetched⟩
        (fun x hx => hls x (List.mem_cons_of_mem l hx))
      have h2 : wlMeasure U ⟨l :: s.visited, s.queue ++ [l], s.fetched⟩ ≤ wlMeasure U s := by
        unfold wlMeasure
        simp only [List.length_append, List.length_singleton]
        have h3 := filter_notmem_cons_lt U l s.visited (hls l (List.mem_cons_self l ls)) hl
        omega
      exact Nat.le_trans h1 h2

theorem crawlStep_inv {α : Type} [DecidableEq α] (links : α → List α) (seed : α) (U : List α)
    (hU : ∀ u ∈ U, ∀ w ∈ links u, w ∈ U) (s : WLState α) (u : α) (rest : List α)
    (hq : s.queue = u :: rest) (hinv : WLInv links seed U s) :
    WLInv links seed U (claimAll (links u) ⟨s.visited, rest, s.fetched ++ [u]⟩) ∧
    wlMeasure U (claimAll (links u) ⟨s.visited, rest, s.fetched ++ [u]⟩) < wlMeasure U s := by
  obtain ⟨hn, hfq, hif, hcl, hre, hU2, hs⟩ := hinv
  have hu_vis : u ∈ s.visited := (hif u).mpr (Or.inr (hq ▸ List.mem_cons_self u rest))
  have hu_reach : Reach links seed u := hre u hu_vis
  have hu_U : u ∈ U := hU2 u hu_vis
  have hlinksU : ∀ l ∈ links u, l ∈ U := hU u hu_U
  have hlinksR : ∀ l ∈ links u, Reach links seed l := fun l hl => Reach.step hu_reach hl
  have hfq1 : ((s.fetched ++ [u]) ++ rest).Nodup := by
    rw [List.append_assoc]
    show (s.fetched ++ ([u] ++ rest)).Nodup
    rw [List.singleton_append, ← hq]
    exact hfq
  have hmem1 : ∀ x, x ∈ s.fetched ++ [u] ∨ x ∈ rest → x ∈ s.visited := by
    intro x hx
    rcases hx with h | h
    · rcases List.mem_append.mp h with h2 | h2
      · exact (hif x).mpr (Or.inl h2)
      · rcases List.mem_singleton.mp h2
        exact hu_vis
    · exact (hif x).mpr (Or.inr (hq ▸ List.mem_cons_of_mem u h))
  constructor
  · refine ⟨?_, ?_, ?_, ?_, ?_, ?_, ?_⟩
    · exact claimAll_visited_nodup (links u) _ hn
    · exact (claimAll_fq (links u) ⟨s.visited, rest, s.fetched ++ [u]⟩ ⟨hfq1, hmem1⟩).1
    · intro x
      rw [claimAll_visited_iff, claimAll_fetched, claimAll_queue_iff]
      show x ∈ s.visited ∨ x ∈ links u ↔
        x ∈ s.fetched ++ [u] ∨ x ∈ rest ∨ (x ∈ links u ∧ x ∉ s.visited)
      constructor
      · rintro (h | h)
        · rcases List.mem_append.mp (((hif x).mp h).elim
            (fun h2 => List.mem_append_left _ h2)
            (fun h2 => List.mem_append_right _ (hq ▸ h2))) with h2 | h2
          · exact Or.inl (List.mem_append_left _ h2)
          · rcases List.mem_cons.mp h2 with h3 | h3
            · exact Or.inl (List.mem_append_right _ (h3 ▸ List.mem_singleton.mpr rfl))
            · exact Or.inr (Or.inl h3)
        · by_cases hv : x ∈ s.visited
          · rcases (hif x).mp hv with h2 | h2
            · exact Or.inl (List.mem_append_left _ h2)
            · rw [hq] at h2
              rcases List.mem_cons.mp h2 with h3 | h3
              · exact Or.inl (List.mem_append_right _ (h3 ▸ List.mem_singleton.mpr rfl))
              · exact Or.inr (Or.inl h3)
          · exact Or.inr (Or.inr ⟨h, hv⟩)
      · rintro (h | h | ⟨h1, _⟩)
        · rcases List.mem_append.mp h with h2 | h2
          · exact Or.inl ((hif x).mpr (Or.inl h2))
          · rcases List.mem_singleton.mp h2
            exact Or.inl hu_vis
        · exact Or.inl ((hif x).mpr (Or.inr (hq ▸ List.mem_cons_of_mem u h)))
        · exact Or.inr h1
    · intro w hw z hz
      rw [claimAll_fetched] at hw
      rw [claimAll_visited_iff]
      rcases List.mem_append.mp hw with h2 | h2
      · exact Or.inl (hcl w h2 z hz)
      · rcases List.mem_singleton.mp h2
        exact Or.inr hz
    · intro x hx
      rcases (claimAll_visited_iff (links u) _ x).mp hx with h | h
      · exact hre x h
      · exact hlinksR x h
    · intro x hx
      rcases (claimAll_visited_iff (links u) _ x).mp hx with h | h
      · exact hU2 x h
      · exact hlinksU x h
    · rw [claimAll_visited_iff]
      exact Or.inl hs
  · have h1 := claimAll_measure U (links u) ⟨s.visited, rest, s.fetched ++ [u]⟩ hlinksU
    have h2 : wlMeasure U ⟨s.visited, rest, s.fetched ++ [u]⟩ < wlMeasure U s := by
      unfold wlMeasure
      rw [hq]
      simp only [List.length_cons]
      omega
    exact Nat.lt_of_le_of_lt h1 h2

theorem crawlLoop_drain {α : Type} [DecidableEq α] (links : α → List α) (seed : α)
    (U : List α) (hU : ∀ u ∈ U, ∀ w ∈ links u, w ∈ U) :
    ∀ (fuel : Nat) (s : WLState α), WLInv links seed U s → wlMeasure U s ≤ fuel →
      ((crawlLoop links fuel s).queue = [] ∧ WLInv links seed U (crawlLoop links fuel s)) := by
  intro fuel
  induction fuel with
  | zero =>
    intro s hinv hm
    have hq : s.queue = [] := by
      apply List.length_eq_zero.mp
      unfold wlMeasure at hm
      omega
    exact ⟨hq, hinv⟩
  | succ fuel ih =>
    intro s hinv hm
    cases hq : s.queue with
    | nil =>
      have he : crawlLoop links (fuel + 1) s = s := by
        simp only [crawlLoop, hq]
      rw [he]
      exact ⟨hq, hinv⟩
    | cons u rest =>
      have he : crawlLoop links (fuel + 1) s =
          crawlLoop links fuel (claimAll (links u) ⟨s.visited, rest, s.fetched ++ [u]⟩) := by
        simp only [crawlLoop, hq]
      obtain ⟨hinv2, hlt⟩ := crawlStep_inv links seed U hU s u rest hq hinv
      rw [he]
      exact ih _ hinv2 (by omega)

set_option maxRecDepth 8000 in
/-- Counterexample to C2 as stated: the finite 202-page chain
`0 → 1 → ⋯ → 201` is a finite same-domain link graph, yet `main.py`'s
recursive crawl with its default `max_depth = 200` never claims page `201`,
which is reachable — so the crawl does not visit exactly the reachable
URLs. -/
theorem c2_counterexample :
    Reach chainLinks 0 201 ∧
    201 ∉ (crawlRec chainLinks 200 250 ([] : List Nat) 0 0).1 := by
  constructor
  · have h : ∀ k : Nat, k ≤ 201 → Reach chainLinks 0 k := by
      intro k
      induction k with
      | zero => intro _; exact Reach.base
      | succ k ih =>
        intro hk
        have hl : k + 1 ∈ chainLinks k := by
          unfold chainLinks
          rw [if_pos (by omega)]
          exact List.mem_singleton.mpr rfl
        exact Reach.step (ih (by omega)) hl
    exact h 201 (by omega)
  · decide

/-- C2 amended: in the worker-pool variant (`faster.py`), for every finite
same-domain link graph the crawl terminates (the frontier drains), the
visited set is exactly the distinct reachable normalized URLs, each of them
is fetched exactly once, and re-encountering an already-visited URL changes
nothing; in the recursive variant (`main.py`) the three-page scenario
A→B→A, A→C behaves the same way, but URLs deeper than `max_depth` are never
claimed (see the counterexample), so for deep sites the visited set can
miss reachable URLs. -/
theorem c2_amended_crawl_termination :
    (∀ (α : Type) [DecidableEq α] (links : α → List α) (seed : α) (U : List α) (fuel : Nat),
      (∀ u ∈ U, ∀ w ∈ links u, w ∈ U) → seed ∈ U → 2 * U.length + 1 ≤ fuel →
      ((crawlLoop links fuel ⟨[seed], [seed], []⟩).queue = [] ∧
       (∀ x, x ∈ (crawlLoop links fuel ⟨[seed], [seed], []⟩).visited ↔ Reach links seed x) ∧
       (∀ x, x ∈ (crawlLoop links fuel ⟨[seed], [seed], []⟩).fetched ↔
         x ∈ (crawlLoop links fuel ⟨[seed], [seed], []⟩).visited) ∧
       (crawlLoop links fuel ⟨[seed], [seed], []⟩).fetched.Nodup ∧
       (∀ x, Reach links seed x →
         (crawlLoop links fuel ⟨[seed], [seed], []⟩).fetched.count x = 1))) ∧
    (∀ (α : Type) [DecidableEq α] (l : α) (s : WLState α), l ∈ s.visited →
      claimAll [l] s = s) ∧
    crawlRec scenLinks 200 10 ([] : List String) "A" 0 = (["C", "B", "A"], ["A", "B", "C"]) ∧
    crawlLoop scenLinks 10 ⟨["A"], ["A"], []⟩ = ⟨["C", "B", "A"], [], ["A", "B", "C"]⟩ := by
  refine ⟨?_, ?_, rfl, rfl⟩
  · intro α _ links seed U fuel hU hseed hfuel
    have hinv0 : WLInv links seed U ⟨[seed], [seed], []⟩ := by
      refine ⟨List.nodup_singleton seed, ?_, ?_, ?_, ?_, ?_, List.mem_singleton.mpr rfl⟩
      · show (([] : List α) ++ [seed]).Nodup
        rw [List.nil_append]
        exact List.nodup_singleton seed
      · intro x
        show x ∈ [seed] ↔ x ∈ ([] : List α) ∨ x ∈ [seed]
        simp
      · intro w hw
        exact absurd hw (List.not_mem_nil w)
      · intro x hx
        rcases List.mem_singleton.mp hx
        exact Reach.base
      · intro x hx
        rcases List.mem_singleton.mp hx
        exact hseed
    have hm0 : wlMeasure U ⟨[seed], [seed], []⟩ ≤ fuel := by
      unfold wlMeasure
      have := List.length_filter_le (fun x => decide (x ∉ [seed])) U
      simp only [List.length_singleton]
      omega
    obtain ⟨hqe, hn, hfq, hif, hcl, hre, _, hs⟩ :=
      crawlLoop_drain links seed U hU fuel ⟨[seed], [seed], []⟩ hinv0 hm0
    have hvr : ∀ x, x ∈ (crawlLoop links fuel ⟨[seed], [seed], []⟩).visited ↔
        Reach links seed x := by
      intro x
      constructor
      · exact hre x
      · intro hx
        induction hx with
        | base => exact hs
        | step hr hl ih =>
          rcases (hif _).mp ih with h2 | h2
          · exact hcl _ h2 _ hl
          · rw [hqe] at h2
            exact absurd h2 (List.not_mem_nil _)
    have hfv : ∀ x, x ∈ (crawlLoop links fuel ⟨[seed], [seed], []⟩).fetched ↔
        x ∈ (crawlLoop links fuel ⟨[seed], [seed], []⟩).visited := by
      intro x
      rw [hif x, hqe]
      simp
    have hnd : (crawlLoop links fuel ⟨[seed], [seed], []⟩).fetched.Nodup := by
      have := hfq
      rw [hqe, List.append_nil] at this
      exact this
    refine ⟨hqe, hvr, hfv, hnd, ?_⟩
    intro x hx
    exact List.count_eq_one_of_mem hnd ((hfv x).mpr ((hvr x).mpr hx))
  · intro α _ l s hl
    simp only [claimAll, if_pos hl]

/-- Witness for C2 (amended) at the three-page scenario with universe
`{A, B, C}` and fuel 10. -/
theorem c2_amended_crawl_termination_witness :
    ((∀ u ∈ ["A", "B", "C"], ∀ w ∈ scenLinks u, w ∈ ["A", "B", "C"]) ∧
     "A" ∈ ["A", "B", "C"] ∧ 2 * (["A", "B", "C"] : List String).length + 1 ≤ 10) ∧
    ((crawlLoop scenLinks 10 ⟨["A"], ["A"], []⟩).queue = [] ∧
     (∀ x, x ∈ (crawlLoop scenLinks 10 ⟨["A"], ["A"], []⟩).visited ↔
       Reach scenLinks "A" x) ∧
     (∀ x, x ∈ (crawlLoop scenLinks 10 ⟨["A"], ["A"], []⟩).fetched ↔
       x ∈ (crawlLoop scenLinks 10 ⟨["A"], ["A"], []⟩).visited) ∧
     (crawlLoop scenLinks 10 ⟨["A"], ["A"], []⟩).fetched.Nodup ∧
     (∀ x, Reach scenLinks "A" x →
       (crawlLoop scenLinks 10 ⟨["A"], ["A"], []⟩).fetched.count x = 1)) :=
  ⟨⟨by decide, by decide, by decide⟩,
   c2_amended_crawl_termination.1 String scenLinks "A" ["A", "B", "C"] 10
     (by decide) (by decide) (by decide)⟩

/-! ## Link extraction (claim C6) -/

theorem linkFold_mem (keep : String → Bool) (val : String → String) :
    ∀ (hs : List String) (acc : List String) (x : String),
      (x ∈ hs.foldl (fun links h =>
          if keep h then (if val h ∈ links then links else links ++ [val h]) else links) acc ↔
        x ∈ acc ∨ ∃ h ∈ hs, keep h = true ∧ x = val h) := by
  intro hs
  induction hs with
  | nil =>
    intro acc x
    simp
  | cons h hs ih =>
    intro acc x
    rw [List.foldl_cons]
    by_cases hk : keep h = true
    · rw [if_pos hk]
      by_cases hv : val h ∈ acc
      · rw [if_pos hv, ih acc x]
        constructor
        · rintro (h2 | ⟨h3, hm, hk3, he⟩)
          · exact Or.inl h2
          · exact Or.inr ⟨h3, List.mem_cons_of_mem h hm, hk3, he⟩
        · rintro (h2 | ⟨h3, hm, hk3, he⟩)
          · exact Or.inl h2
          · rcases List.mem_cons.mp hm with h4 | h4
            · subst h4
              exact Or.inl (he ▸ hv)
            · exact Or.inr ⟨h3, h4, hk3, he⟩
      · rw [if_neg hv, ih _ x]
        constructor
        · rintro (h2 | ⟨h3, hm, hk3, he⟩)
          · rcases List.mem_append.mp h2 with h4 | h4
            · exact Or.inl h4
            · rcases List.mem_singleton.mp h4
              exact Or.inr ⟨h, List.mem_cons_self h hs, hk, rfl⟩
          · exact Or.inr ⟨h3, List.mem_cons_of_mem h hm, hk3, he⟩
        · rintro (h2 | ⟨h3, hm, hk3, he⟩)
          · exact Or.inl (List.mem_append_left _ h2)
          · rcases List.mem_cons.mp hm with h4 | h4
            · subst h4
              exact Or.inl (List.mem_append_right _ (he ▸ List.mem_singleton.mpr rfl))
            · exact Or.inr ⟨h3, h4, hk3, he⟩
    · rw [if_neg hk, ih acc x]
      constructor
      · rintro (h2 | ⟨h3, hm, hk3, he⟩)
        · exact Or.inl h2
        · exact Or.inr ⟨h3, List.mem_cons_of_mem h hm, hk3, he⟩
      · rintro (h2 | ⟨h3, hm, hk3, he⟩)
        · exact Or.inl h2
        · rcases List.mem_cons.mp hm with h4 | h4
          · exact absurd (h4 ▸ hk3) hk
          · exact Or.inr ⟨h3, h4, hk3, he⟩

theorem linkFold_nodup (keep : String → Bool) (val : String → String) :
    ∀ (hs : List String) (acc : List String), acc.Nodup →
      (hs.foldl (fun links h =>
        if keep h then (if val h ∈ links then links else links ++ [val h]) else links)
        acc).Nodup := by
  intro hs
  induction hs with
  | nil => intro acc h; exact h
  | cons h hs ih =>
    intro acc hacc
    rw [List.foldl_cons]
    by_cases hk : keep h = true
    · rw [if_pos hk]
      by_cases hv : val h ∈ acc
      · rw [if_pos hv]
        exact ih acc hacc
      · rw [if_neg hv]
        apply ih
        rw [List.nodup_append]
        refine ⟨hacc, List.nodup_singleton _, ?_⟩
        intro y hy hy2
        rcases List.mem_singleton.mp hy2
        exact hv hy
    · rw [if_neg hk]
      exact ih acc hacc

theorem extract_links_eq (soup : HNode) (base_url BASE_URL : String) :
    extract_links soup base_url BASE_URL =
      (hrefsOf soup).foldl (fun links h =>
        if keepMain base_url BASE_URL h then
          (if linkVal base_url h ∈ links then links else links ++ [linkVal base_url h])
        else links) [] := by
  unfold extract_links
  congr 1
  funext links h
  unfold keepMain linkVal normalizeUrl
  by_cases hk : (urlparse (urljoin base_url (pyStrip h))).netloc = (urlparse BASE_URL).netloc
  · simp [hk]
  · simp [hk]

theorem fastLinkPass_eq (soup : HNode) (url BASE_URL : String) :
    fastLinkPass soup url BASE_URL =
      (hrefsOf soup).foldl (fun links h =>
        if keepFast url BASE_URL h then
          (if linkVal url h ∈ links then links else links ++ [linkVal url h])
        else links) [] := by
  unfold fastLinkPass
  congr 1
  funext links h
  unfold keepFast linkVal normalizeUrl
  by_cases hsk : (strStarts (pyStrip h) "mailto:" || strStarts (pyStrip h) "tel:" ||
      strStarts (pyStrip h) "javascript:" || strContains (pyStrip h) "cdn-cgi") = true
  · simp [hsk]
  · by_cases hk : (urlparse (urljoin url (pyStrip h))).netloc = (urlparse BASE_URL).netloc
    · simp [hsk, hk]
    · simp [hsk, hk]

/-- Counterexample to C6 as stated: `main.py`'s `extract_links` keeps a
same-domain link whose `href` matches the vendor-infrastructure marker
`cdn-cgi`, instead of skipping it. -/
theorem c6_counterexample :
    strContains (pyStrip "/cdn-cgi/x") "cdn-cgi" = true ∧
    extract_links (el "html" [elA "a" [("href", "/cdn-cgi/x")] [tx "l"]])
      "http://ex.com/" "http://ex.com/" = ["http://ex.com/cdn-cgi/x"] :=
  ⟨rfl, rfl⟩

/-- C6 amended: the extracted link set of `faster.py` is exactly the
normalized resolutions of the `href`s that pass the scheme/vendor skip and
the same-netloc test, with duplicates collapsed; `main.py`'s `extract_links`
is the same but with no scheme or vendor filter (its only gate is the
netloc comparison, so mail/tel/script targets drop out only because their
resolved netloc differs, and same-domain vendor-infrastructure paths are
kept). On the spec's scenario page both variants yield exactly
`{"http://ex.com/b"}`. -/
theorem c6_amended_link_pass :
    (∀ (soup : HNode) (url BASE_URL x : String),
      x ∈ fastLinkPass soup url BASE_URL ↔
        ∃ h ∈ hrefsOf soup, keepFast url BASE_URL h = true ∧ x = linkVal url h) ∧
    (∀ (soup : HNode) (base_url BASE_URL x : String),
      x ∈ extract_links soup base_url BASE_URL ↔
        ∃ h ∈ hrefsOf soup, keepMain base_url BASE_URL h = true ∧ x = linkVal base_url h) ∧
    (∀ (soup : HNode) (url BASE_URL : String), (fastLinkPass soup url BASE_URL).Nodup) ∧
    (∀ (soup : HNode) (base_url BASE_URL : String),
      (extract_links soup base_url BASE_URL).Nodup) ∧
    (∀ (url BASE_URL h : String),
      strStarts (pyStrip h) "mailto:" = true ∨ strStarts (pyStrip h) "tel:" = true ∨
        strStarts (pyStrip h) "javascript:" = true ∨
        strContains (pyStrip h) "cdn-cgi" = true →
      keepFast url BASE_URL h = false) ∧
    extract_links
      (el "html" [el "body"
        [elA "a" [("href", "/b?x=1#frag")] [tx "l1"],
         elA "a" [("href", "mailto:a@ex.com")] [tx "l2"],
         elA "a" [("href", "http://other.com/c")] [tx "l3"]]])
      "http://ex.com/" "http://ex.com/" = ["http://ex.com/b"] ∧
    fastLinkPass
      (el "html" [el "body"
        [elA "a" [("href", "/b?x=1#frag")] [tx "l1"],
         elA "a" [("href", "mailto:a@ex.com")] [tx "l2"],
         elA "a" [("href", "http://other.com/c")] [tx "l3"]]])
      "http://ex.com/" "http://ex.com/" = ["http://ex.com/b"] := by
  refine ⟨?_, ?_, ?_, ?_, ?_, rfl, rfl⟩
  · intro soup url BASE_URL x
    rw [fastLinkPass_eq, linkFold_mem]
    simp
  · intro soup base_url BASE_URL x
    rw [extract_links_eq, linkFold_mem]
    simp
  · intro soup url BASE_URL
    rw [fastLinkPass_eq]
    exact linkFold_nodup _ _ _ [] List.nodup_nil
  · intro soup base_url BASE_URL
    rw [extract_links_eq]
    exact linkFold_nodup _ _ _ [] List.nodup_nil
  · intro url BASE_URL h hsk
    unfold keepFast
    rcases hsk with h1 | h1 | h1 | h1 <;> simp [h1]

/-- Witness for C6 (amended): a `mailto:` target is rejected by the
`faster.py` keep-condition. -/
theorem c6_amended_link_pass_witness :
    (strStarts (pyStrip "mailto:a@ex.com") "mailto:" = true ∨
     strStarts (pyStrip "mailto:a@ex.com") "tel:" = true ∨
     strStarts (pyStrip "mailto:a@ex.com") "javascript:" = true ∨
     strContains (pyStrip "mailto:a@ex.com") "cdn-cgi" = true) ∧
    keepFast "http://ex.com/" "http://ex.com/" "mailto:a@ex.com" = false :=
  ⟨Or.inl (by decide),
   c6_amended_link_pass.2.2.2.2.1 "http://ex.com/" "http://ex.com/" "mailto:a@ex.com"
     (Or.inl (by decide))⟩

/-! ## URL normalization is idempotent (claim C9) -/

theorem lowerChar_eq_of_not_upper (c : Char) (h : upperAscii c = false) : lowerChar c = c := by
  unfold lowerChar
  split
  all_goals try rfl
  all_goals simp [upperAscii] at h

theorem lowerChar_not_upper (c : Char) : upperAscii (lowerChar c) = false := by
  unfold lowerChar
  split
  all_goals try decide
  rename_i hs
  simp only [upperAscii]
  simp_all

theorem lowerChar_idem (c : Char) : lowerChar (lowerChar c) = lowerChar c :=
  lowerChar_eq_of_not_upper _ (lowerChar_not_upper c)

theorem lowerChar_isAlpha (c : Char) (h : c.isAlpha = true) : (lowerChar c).isAlpha = true := by
  unfold lowerChar
  split <;> first | decide | exact h

theorem lowerChar_schemeChar (c : Char) (h : schemeChar c = true) :
    schemeChar (lowerChar c) = true := by
  unfold lowerChar
  split <;> first | decide | exact h

theorem tw_all {α : Type} (p : α → Bool) :
    ∀ l : List α, (∀ x ∈ l, p x = true) → l.takeWhile p = l := by
  intro l
  induction l with
  | nil => intro _; rfl
  | cons x xs ih =>
    intro h
    rw [List.takeWhile_cons, if_pos (h x (List.mem_cons_self x xs)),
      ih (fun y hy => h y (List.mem_cons_of_mem x hy))]

theorem dw_all {α : Type} (p : α → Bool) :
    ∀ l : List α, (∀ x ∈ l, p x = true) → l.dropWhile p = [] := by
  intro l
  induction l with
  | nil => intro _; rfl
  | cons x xs ih =>
    intro h
    rw [List.dropWhile_cons, if_pos (h x (List.mem_cons_self x xs))]
    exact ih (fun y hy => h y (List.mem_cons_of_mem x hy))

theorem tw_app_all {α : Type} (p : α → Bool) :
    ∀ (a b : List α), (∀ x ∈ a, p x = true) →
      (a ++ b).takeWhile p = a ++ b.takeWhile p := by
  intro a
  induction a with
  | nil => intro b _; rfl
  | cons x xs ih =>
    intro b h
    rw [List.cons_append, List.takeWhile_cons, if_pos (h x (List.mem_cons_self x xs)),
      ih b (fun y hy => h y (List.mem_cons_of_mem x hy)), List.cons_append]

theorem dw_app_all {α : Type} (p : α → Bool) :
    ∀ (a b : List α), (∀ x ∈ a, p x = true) →
      (a ++ b).dropWhile p = b.dropWhile p := by
  intro a
  induction a with
  | nil => intro b _; rfl
  | cons x xs ih =>
    intro b h
    rw [List.cons_append, List.dropWhile_cons, if_pos (h x (List.mem_cons_self x xs))]
    exact ih b (fun y hy => h y (List.mem_cons_of_mem x hy))

theorem mem_tw {α : Type} (p : α → Bool) :
    ∀ (l : List α) (x : α), x ∈ l.takeWhile p → x ∈ l ∧ p x = true := by
  intro l
  induction l with
  | nil => intro x hx; cases hx
  | cons y ys ih =>
    intro x hx
    rw [List.takeWhile_cons] at hx
    by_cases hp : p y = true
    · rw [if_pos hp] at hx
      rcases List.mem_cons.mp hx with h | h
      · exact ⟨h ▸ List.mem_cons_self y ys, h ▸ hp⟩
      · obtain ⟨h1, h2⟩ := ih x h
        exact ⟨List.mem_cons_of_mem y h1, h2⟩
    · rw [if_neg hp] at hx
      cases hx

theorem mem_dw {α : Type} (p : α → Bool) :
    ∀ (l : List α) (x : α), x ∈ l.dropWhile p → x ∈ l := by
  intro l
  induction l with
  | nil => intro x hx; cases hx
  | cons y ys ih =>
    intro x hx
    rw [List.dropWhile_cons] at hx
    by_cases hp : p y = true
    · rw [if_pos hp] at hx
      exact List.mem_cons_of_mem y (ih x hx)
    · rw [if_neg hp] at hx
      exact hx

theorem dw_head {α : Type} (p : α → Bool) :
    ∀ l : List α, l.dropWhile p = [] ∨
      ∃ c cs, l.dropWhile p = c :: cs ∧ p c = false := by
  intro l
  induction l with
  | nil => exact Or.inl rfl
  | cons y ys ih =>
    rw [List.dropWhile_cons]
    by_cases hp : p y = true
    · rw [if_pos hp]
      exact ih
    · rw [if_neg hp]
      exact Or.inr ⟨y, ys, rfl, Bool.eq_false_iff.mpr hp⟩

theorem tw_app_stop {α : Type} (p : α → Bool) :
    ∀ (a b : List α), (∃ x ∈ a, p x = false) →
      (a ++ b).takeWhile p = a.takeWhile p := by
  intro a
  induction a with
  | nil =>
    intro b h
    obtain ⟨x, hx, _⟩ := h
    cases hx
  | cons y ys ih =>
    intro b h
    rw [List.cons_append, List.takeWhile_cons, List.takeWhile_cons]
    by_cases hp : p y = true
    · rw [if_pos hp, if_pos hp]
      obtain ⟨x, hx, hpx⟩ := h
      rcases List.mem_cons.mp hx with h2 | h2
      · rw [h2] at hpx
        rw [hpx] at hp
        cases hp
      · rw [ih b ⟨x, h2, hpx⟩]
    · rw [if_neg hp, if_neg hp]

theorem contains_false_of_not_mem (l : List Char) (ch : Char) (h : ch ∉ l) :
    l.contains ch = false := by
  by_cases hc : l.contains ch = true
  · exact absurd (List.mem_of_elem_eq_true hc) h
  · exact Bool.eq_false_iff.mpr hc

theorem mem_of_contains_true (l : List Char) (ch : Char) (h : l.contains ch = true) :
    ch ∈ l :=
  List.mem_of_elem_eq_true h

theorem contains_true_of_mem (l : List Char) (ch : Char) (h : ch ∈ l) :
    l.contains ch = true :=
  List.elem_eq_true_of_mem h


theorem splitScheme_wf (cs s r : List Char) (h : splitScheme cs = some (s, r)) :
    s ≠ [] ∧
    (∀ c cr, s = c :: cr → c.isAlpha = true) ∧
    (∀ c ∈ s, schemeChar c = true) ∧
    s.map lowerChar = s := by
  simp only [splitScheme] at h
  split at h
  · split at h
    · rename_i hcond
      have h2 := Option.some.inj h
      have hs : (cs.takeWhile (fun c => c != ':')).map lowerChar = s :=
        congrArg Prod.fst h2
      simp only [Bool.and_eq_true] at hcond
      obtain ⟨hhead, hall⟩ := hcond
      have hallm : ∀ c ∈ cs.takeWhile (fun c => c != ':'), schemeChar c = true :=
        List.all_eq_true.mp hall
      cases hpre : cs.takeWhile (fun c => c != ':') with
      | nil =>
        rw [hpre] at hhead
        exact absurd (hhead : (false : Bool) = true) (by decide)
      | cons p0 ps =>
        rw [hpre] at hs hallm
        have hhead' : p0.isAlpha = true := by
          rw [hpre] at hhead
          exact hhead
        subst hs
        refine ⟨by simp, ?_, ?_, ?_⟩
        · intro c cr he
          rw [List.map_cons] at he
          have hc : lowerChar p0 = c := (List.cons.injEq _ _ _ _ ▸ he).1
          rw [← hc]
          exact lowerChar_isAlpha p0 hhead'
        · intro c hcm
          obtain ⟨c0, hc0, he⟩ := List.mem_map.mp hcm
          rw [← he]
          exact lowerChar_schemeChar c0 (hallm c0 hc0)
        · rw [List.map_map]
          apply List.map_congr_left
          intro a _
          exact lowerChar_idem a
    · exact Option.noConfusion h
  · exact Option.noConfusion h

theorem splitScheme_clean (s rest : List Char) (hne : s ≠ [])
    (hhead : ∀ c cr, s = c :: cr → c.isAlpha = true)
    (hall : ∀ c ∈ s, schemeChar c = true) (hfix : s.map lowerChar = s) :
    splitScheme (s ++ ':' :: rest) = some (s, rest) := by
  have hnc : ∀ c ∈ s, (c != ':') = true := by
    intro c hc
    apply bne_iff_ne.mpr
    intro he
    have h2 := hall c hc
    rw [he] at h2
    exact absurd h2 (by decide)
  have h1 : (s ++ ':' :: rest).takeWhile (fun c => c != ':') = s := by
    rw [tw_app_all _ s (':' :: rest) hnc, List.takeWhile_cons, if_neg (by decide)]
    exact List.append_nil s
  have h2 : (s ++ ':' :: rest).dropWhile (fun c => c != ':') = ':' :: rest := by
    rw [dw_app_all _ s (':' :: rest) hnc, List.dropWhile_cons, if_neg (by decide)]
  simp only [splitScheme, h1, h2]
  rw [hfix]
  split
  · rfl
  · rename_i hneg
    exfalso
    apply hneg
    cases s with
    | nil => exact absurd rfl hne
    | cons c cstl =>
      show (c.isAlpha && (c :: cstl).all schemeChar) = true
      simp only [Bool.and_eq_true]
      exact ⟨hhead c cstl rfl, List.all_eq_true.mpr hall⟩

theorem splitNetloc_fst (u : List Char) :
    ∀ c ∈ (splitNetloc u).1, netlocDelim c = false := by
  intro c hc
  unfold splitNetloc at hc
  split at hc
  · rename_i rest
    have h2 := (mem_tw _ rest c hc).2
    simpa using h2
  · exact absurd hc (List.not_mem_nil c)

theorem splitAtFirst_fst_subset (ch : Char) (u : List Char) :
    ∀ x ∈ (splitAtFirst ch u).1, x ∈ u ∧ x ≠ ch := by
  intro x hx
  unfold splitAtFirst at hx
  obtain ⟨h1, h2⟩ := mem_tw _ u x hx
  exact ⟨h1, bne_iff_ne.mp h2⟩

theorem splitAtFirst_all (ch : Char) (u : List Char) (h : ch ∉ u) :
    splitAtFirst ch u = (u, []) := by
  unfold splitAtFirst
  have hall : ∀ x ∈ u, (x != ch) = true := by
    intro x hx
    exact bne_iff_ne.mpr (fun e => h (e ▸ hx))
  rw [tw_all _ u hall, dw_all _ u hall]
  rfl

theorem splitPathParams_fst_subset (cs : List Char) :
    ∀ x ∈ (splitPathParams cs).1, x ∈ cs := by
  intro x hx
  simp only [splitPathParams] at hx
  split at hx
  · split at hx
    · rcases List.mem_append.mp hx with h3 | h3
      · have h4 := List.mem_reverse.mp h3
        have h5 := mem_dw _ cs.reverse x h4
        exact List.mem_reverse.mp h5
      · have h4 := (mem_tw _ _ x h3).1
        have h5 := List.mem_reverse.mp h4
        have h6 := (mem_tw _ cs.reverse x h5).1
        exact List.mem_reverse.mp h6
    · exact hx
  · exact (mem_tw _ cs x hx).1

theorem lastSeg_subset (p : List Char) : ∀ x ∈ lastSeg p, x ∈ p := by
  intro x hx
  unfold lastSeg at hx
  have h1 := List.mem_reverse.mp hx
  have h2 := (mem_tw _ p.reverse x h1).1
  exact List.mem_reverse.mp h2

theorem lastSeg_append_right (a b : List Char) (h : '/' ∈ b) :
    lastSeg (a ++ b) = lastSeg b := by
  unfold lastSeg
  rw [List.reverse_append]
  rw [tw_app_stop _ b.reverse a.reverse
    ⟨'/', List.mem_reverse.mpr h, by decide⟩]

theorem splitPathParams_lastSeg_free (cs : List Char) :
    (lastSeg (splitPathParams cs).1).contains ';' = false := by
  simp only [splitPathParams]
  split
  · rename_i hsl
    split
    · rename_i hseg
      show (lastSeg ((cs.reverse.dropWhile (fun c => c != '/')).reverse ++
          ((cs.reverse.takeWhile (fun c => c != '/')).reverse.takeWhile
            (fun c => c != ';')))).contains ';' = false
      have hsl' : '/' ∈ cs := mem_of_contains_true cs '/' hsl
      have hdw : cs.reverse.dropWhile (fun c => c != '/') ≠ [] := by
        intro he
        have htw : cs.reverse.takeWhile (fun c => c != '/') = cs.reverse := by
          have h0 := List.takeWhile_append_dropWhile (fun c => c != '/') cs.reverse
          rw [he, List.append_nil] at h0
          exact h0
        have hmem : '/' ∈ cs.reverse.takeWhile (fun c => c != '/') := by
          rw [htw]
          exact List.mem_reverse.mpr hsl'
        have h5 := (mem_tw _ cs.reverse '/' hmem).2
        exact absurd h5 (by decide)
      rcases dw_head (fun c => c != '/') cs.reverse with h3 | ⟨c, tl, h3, h4⟩
      · exact absurd h3 hdw
      · have hc : c = '/' := by simpa using h4
        subst hc
        rw [h3, List.reverse_cons, List.append_assoc]
        rw [lastSeg_append_right tl.reverse _
          (List.mem_append_left _ (List.mem_singleton.mpr rfl))]
        have hsegfree : ∀ x ∈ ((cs.reverse.takeWhile (fun c => c != '/')).reverse.takeWhile
            (fun c => c != ';')), (x != '/') = true := by
          intro x hx
          have h5 := (mem_tw _ _ x hx).1
          have h6 := List.mem_reverse.mp h5
          exact (mem_tw _ cs.reverse x h6).2
        have hls : lastSeg (['/'] ++
            ((cs.reverse.takeWhile (fun c => c != '/')).reverse.takeWhile
              (fun c => c != ';'))) =
            ((cs.reverse.takeWhile (fun c => c != '/')).reverse.takeWhile
              (fun c => c != ';')) := by
          unfold lastSeg
          rw [List.reverse_append]
          rw [tw_app_all _ _ _ (fun x hx => hsegfree x (List.mem_reverse.mp hx))]
          rw [(by decide : ((['/'] : List Char).reverse.takeWhile (fun c => c != '/')) =
            ([] : List Char))]
          rw [List.append_nil, List.reverse_reverse]
        rw [hls]
        apply contains_false_of_not_mem
        intro hmem
        exact absurd (mem_tw _ _ ';' hmem).2 (by decide)
    · rename_i hseg
      exact Bool.eq_false_iff.mpr hseg
  · rename_i hsl
    apply contains_false_of_not_mem
    intro hmem
    have h2 := lastSeg_subset _ ';' hmem
    have h3 := (mem_tw _ cs ';' h2).2
    exact absurd h3 (by decide)

theorem splitPathParams_id (cs : List Char) (h1 : cs.contains '/' = true)
    (h2 : (lastSeg cs).contains ';' = false) : splitPathParams cs = (cs, []) := by
  simp only [splitPathParams]
  rw [if_pos h1]
  show (if ((lastSeg cs).contains ';') = true then _ else (cs, [])) = (cs, [])
  rw [if_neg (fun hcon => absurd (h2 ▸ hcon) (by decide))]

theorem mk_append (a b : List Char) :
    String.mk a ++ String.mk b = String.mk (a ++ b) := rfl

theorem normalizeUrl_eq (u : String) :
    normalizeUrl u = String.mk ((urlparse u).scheme.data ++
      ':' :: '/' :: '/' :: ((urlparse u).netloc.data ++ (urlparse u).path.data)) := by
  unfold normalizeUrl
  rcases hu : urlparse u with ⟨⟨sd⟩, ⟨nd⟩, ⟨pd⟩, pp, q, f⟩
  show String.mk sd ++ "://" ++ String.mk nd ++ String.mk pd =
    String.mk (sd ++ ':' :: '/' :: '/' :: (nd ++ pd))
  rw [(rfl : ("://" : String) = String.mk [':', '/', '/'])]
  rw [mk_append, mk_append, mk_append]
  apply congrArg String.mk
  simp [List.append_assoc]

theorem urlparse_scheme_eq (u : String) (s r : List Char)
    (hsp : splitScheme u.data = some (s, r)) :
    (urlparse u).scheme = String.mk s := by
  simp only [urlparse, urlparseWith, urlsplitCore, hsp]

theorem urlparse_netloc_eq (u : String) (s r : List Char)
    (hsp : splitScheme u.data = some (s, r)) :
    (urlparse u).netloc = String.mk (splitNetloc r).1 := by
  simp only [urlparse, urlparseWith, urlsplitCore, hsp]

theorem urlparse_path_eq (u : String) (s r : List Char)
    (hsp : splitScheme u.data = some (s, r)) :
    (urlparse u).path.data =
      (if decide (String.mk s ∈ usesParams) &&
          ((splitAtFirst '?' (splitAtFirst '#' (splitNetloc r).2).1).1).contains ';' then
        splitPathParams ((splitAtFirst '?' (splitAtFirst '#' (splitNetloc r).2).1).1)
      else (((splitAtFirst '?' (splitAtFirst '#' (splitNetloc r).2).1).1), [])).1 := by
  simp only [urlparse, urlparseWith, urlsplitCore, hsp]

theorem normalize_stable (s n p : List Char)
    (hne : s ≠ [])
    (hhead : ∀ c cr, s = c :: cr → c.isAlpha = true)
    (hall : ∀ c ∈ s, schemeChar c = true)
    (hfix : s.map lowerChar = s)
    (hn : ∀ c ∈ n, netlocDelim c = false)
    (hp1 : '#' ∉ p) (hp2 : '?' ∉ p)
    (hp3 : String.mk s ∈ usesParams → ';' ∈ p → (lastSeg p).contains ';' = false) :
    normalizeUrl (String.mk (s ++ ':' :: '/' :: '/' :: (n ++ p))) =
      String.mk (s ++ ':' :: '/' :: '/' :: (n ++ p)) := by
  have hsp : splitScheme (String.mk (s ++ ':' :: '/' :: '/' :: (n ++ p))).data =
      some (s, '/' :: '/' :: (n ++ p)) :=
    splitScheme_clean s ('/' :: '/' :: (n ++ p)) hne hhead hall hfix
  have hn' : ∀ c ∈ n, (!netlocDelim c) = true := by
    intro c hc
    rw [hn c hc]
    rfl
  have hnl : splitNetloc ('/' :: '/' :: (n ++ p)) =
      (n ++ p.takeWhile (fun c => !netlocDelim c), p.dropWhile (fun c => !netlocDelim c)) := by
    show ((n ++ p).takeWhile (fun c => !netlocDelim c),
      (n ++ p).dropWhile (fun c => !netlocDelim c)) = _
    rw [tw_app_all _ n p hn', dw_app_all _ n p hn']
  have hsubP : ∀ x : Char, x ∈ p.dropWhile (fun c => !netlocDelim c) → x ∈ p :=
    fun x hx => mem_dw _ p x hx
  have hf : splitAtFirst '#' (p.dropWhile (fun c => !netlocDelim c)) =
      (p.dropWhile (fun c => !netlocDelim c), []) :=
    splitAtFirst_all _ _ (fun hmem => hp1 (hsubP _ hmem))
  have hq : splitAtFirst '?' (p.dropWhile (fun c => !netlocDelim c)) =
      (p.dropWhile (fun c => !netlocDelim c), []) :=
    splitAtFirst_all _ _ (fun hmem => hp2 (hsubP _ hmem))
  have hparams : (if decide (String.mk s ∈ usesParams) &&
        (p.dropWhile (fun c => !netlocDelim c)).contains ';' then
      splitPathParams (p.dropWhile (fun c => !netlocDelim c))
    else ((p.dropWhile (fun c => !netlocDelim c)), [])) =
      ((p.dropWhile (fun c => !netlocDelim c)), []) := by
    by_cases hmem : ';' ∈ p.dropWhile (fun c => !netlocDelim c)
    · by_cases hus : String.mk s ∈ usesParams
      · have hcond : (decide (String.mk s ∈ usesParams) &&
            (p.dropWhile (fun c => !netlocDelim c)).contains ';') = true := by
          simp only [Bool.and_eq_true]
          exact ⟨decide_eq_true hus, contains_true_of_mem _ ';' hmem⟩
        rw [if_pos hcond]
        rcases dw_head (fun c => !netlocDelim c) p with hnil | ⟨c, tl, heq, hcp⟩
        · rw [hnil] at hmem
          exact absurd hmem (List.not_mem_nil ';')
        · have hcmem : c ∈ p := hsubP c (by rw [heq]; exact List.mem_cons_self c tl)
          have hdelim : netlocDelim c = true := by simpa using hcp
          have hc : c = '/' := by
            unfold netlocDelim at hdelim
            simp only [Bool.or_eq_true, beq_iff_eq] at hdelim
            rcases hdelim with (h | h) | h
            · exact h
            · exact absurd (h ▸ hcmem) hp2
            · exact absurd (h ▸ hcmem) hp1
          have hsl : '/' ∈ p.dropWhile (fun c => !netlocDelim c) := by
            rw [heq, ← hc]
            exact List.mem_cons_self c tl
          have hls : lastSeg (p.dropWhile (fun c => !netlocDelim c)) = lastSeg p := by
            conv_rhs => rw [← List.takeWhile_append_dropWhile (fun c => !netlocDelim c) p]
            rw [lastSeg_append_right _ _ hsl]
          apply splitPathParams_id
          · exact contains_true_of_mem _ '/' hsl
          · rw [hls]
            exact hp3 hus (hsubP ';' hmem)
      · rw [if_neg]
        intro hcon
        simp only [Bool.and_eq_true] at hcon
        exact hus (of_decide_eq_true hcon.1)
    · rw [if_neg]
      intro hcon
      simp only [Bool.and_eq_true] at hcon
      exact hmem (mem_of_contains_true _ ';' hcon.2)
  rw [normalizeUrl_eq]
  rw [urlparse_scheme_eq _ s ('/' :: '/' :: (n ++ p)) hsp,
    urlparse_netloc_eq _ s ('/' :: '/' :: (n ++ p)) hsp,
    urlparse_path_eq _ s ('/' :: '/' :: (n ++ p)) hsp]
  simp only [hnl, hf, hq, hparams]
  apply congrArg String.mk
  simp [List.append_assoc, List.takeWhile_append_dropWhile]

/-- C9: URL normalization (keep scheme, authority and path; strip query and
fragment), as both `extract_links` in `main.py` (line 135) and
`parse_content_and_links` in `faster.py` (line 75) compute it via
`urlparse`, is idempotent: for every URL `u` — a string that `urlparse`
recognizes as an absolute URL, i.e. one carrying a scheme —
`normalize (normalize u) = normalize u`. -/
theorem c9_normalize_idempotent (u : String) (h : (urlparse u).scheme ≠ "") :
    normalizeUrl (normalizeUrl u) = normalizeUrl u := by
  cases hsp : splitScheme u.data with
  | none =>
    exfalso
    apply h
    simp only [urlparse, urlparseWith, urlsplitCore, hsp]
  | some pr =>
    obtain ⟨s, r⟩ := pr
    obtain ⟨hne, hhead, hall, hfix⟩ := splitScheme_wf u.data s r hsp
    have hsch := urlparse_scheme_eq u s r hsp
    have hpath := urlparse_path_eq u s r hsp
    have hq0 : ∀ x ∈ (splitAtFirst '?' (splitAtFirst '#' (splitNetloc r).2).1).1,
        x ∈ (splitAtFirst '#' (splitNetloc r).2).1 ∧ x ≠ '?' :=
      splitAtFirst_fst_subset '?' _
    have hh0 : ∀ x ∈ (splitAtFirst '#' (splitNetloc r).2).1, x ≠ '#' :=
      fun x hx => (splitAtFirst_fst_subset '#' _ x hx).2
    have hpath0q : '?' ∉ (splitAtFirst '?' (splitAtFirst '#' (splitNetloc r).2).1).1 :=
      fun hmem => (hq0 '?' hmem).2 rfl
    have hpath0h : '#' ∉ (splitAtFirst '?' (splitAtFirst '#' (splitNetloc r).2).1).1 :=
      fun hmem => hh0 '#' ((hq0 '#' hmem).1) rfl
    obtain ⟨hp1, hp2, hp3⟩ :
        '#' ∉ (urlparse u).path.data ∧ '?' ∉ (urlparse u).path.data ∧
        (String.mk s ∈ usesParams → ';' ∈ (urlparse u).path.data →
          (lastSeg (urlparse u).path.data).contains ';' = false) := by
      by_cases hcnd : (decide (String.mk s ∈ usesParams) &&
          ((splitAtFirst '?' (splitAtFirst '#' (splitNetloc r).2).1).1).contains ';') = true
      · rw [if_pos hcnd] at hpath
        have hsub := splitPathParams_fst_subset
          ((splitAtFirst '?' (splitAtFirst '#' (splitNetloc r).2).1).1)
        refine ⟨?_, ?_, ?_⟩
        · rw [hpath]
          intro hm
          exact hpath0h (hsub '#' hm)
        · rw [hpath]
          intro hm
          exact hpath0q (hsub '?' hm)
        · intro _ _
          rw [hpath]
          exact splitPathParams_lastSeg_free _
      · rw [if_neg hcnd] at hpath
        have hpath' : (urlparse u).path.data =
            (splitAtFirst '?' (splitAtFirst '#' (splitNetloc r).2).1).1 := hpath
        refine ⟨?_, ?_, ?_⟩
        · rw [hpath']
          exact hpath0h
        · rw [hpath']
          exact hpath0q
        · intro hus hmem
          exfalso
          apply hcnd
          simp only [Bool.and_eq_true]
          exact ⟨decide_eq_true hus, contains_true_of_mem _ ';' (hpath' ▸ hmem)⟩
    have hnorm : normalizeUrl u = String.mk (s ++ ':' :: '/' :: '/' ::
        ((splitNetloc r).1 ++ (urlparse u).path.data)) := by
      rw [normalizeUrl_eq u, hsch, urlparse_netloc_eq u s r hsp]
    rw [hnorm]
    exact normalize_stable s (splitNetloc r).1 (urlparse u).path.data hne hhead hall hfix
      (fun c hc => splitNetloc_fst r c hc) hp1 hp2 hp3

theorem c9_normalize_idempotent_witness :
    (urlparse "HTTP://EX.com/a/b;x?q=1#f").scheme ≠ "" ∧
    normalizeUrl (normalizeUrl "HTTP://EX.com/a/b;x?q=1#f") =
      normalizeUrl "HTTP://EX.com/a/b;x?q=1#f" :=
  ⟨by decide, c9_normalize_idempotent "HTTP://EX.com/a/b;x?q=1#f" (by decide)⟩
